import Mathlib

/-!
Verification development for the character-layout and preprocessing routines of
`meihyo.py` / `kaisetu.py` (vertical Japanese typesetting of roster data).

Modelling conventions:
* Strings are `List Char`; coordinates and font metrics are rationals (`ℚ`),
  since the source uses exact decimal constants such as `4.5` and `0.05`.
* Each drawing routine is embedded as a pure function returning the list of
  drawing instructions it issues (character, draw position, rotation, font),
  mirroring the loop in the source line by line.  The wrap renderer state
  `(current_x, current_y, char_count)` is an explicit record.
* A second, coarser embedding records the raw canvas-operator stream
  (`setFont` / `setLineWidth` / `2 Tr` / `drawString` / `0 Tr` …) to reason
  about the emulated-bold bracketing.
* The pandas row preprocessing is embedded over association-list records.
  Reads through `.get(col, "") or ""` (after `fillna('')`) become `getCol`
  with empty-string default; the bracket reads in `format_df` raise
  `KeyError` on a missing column, so `step_format` and `preprocess_data`
  return `Option` and are `none` there.
-/

namespace Syodokai

/-- Characters that must not start a line/column (meihyo.py line 35,
`LEADING_PROHIBITED_CHARS`). -/
def LEADING_PROHIBITED_CHARS : List Char :=
  [ '。', '、', '」', '』', ')', '）', ']', '}' ]

/-- A per-character positional correction: `x_offset`, `y_offset`, and an
optional rotation angle override (the dictionaries in meihyo.py lines 41-335;
most entries carry no `angle` key). -/
structure Adj where
  xOff : ℚ
  yOff : ℚ
  angle : Option ℚ
deriving DecidableEq, Repr

/-- Hanging-punctuation offsets (meihyo.py line 41,
`HANGING_PUNCTUATION_ADJUSTMENTS`). -/
def HANGING_PUNCTUATION_ADJUSTMENTS : List (Char × Adj) :=
  [ ('。', ⟨8, -2, none⟩), ('、', ⟨8, -2, none⟩), ('」', ⟨3, -5, none⟩),
    ('』', ⟨2, -5, none⟩), (')', ⟨2, -5, none⟩), ('）', ⟨4, 0, none⟩),
    (']', ⟨4, 0, none⟩), ('}', ⟨4, 0, none⟩) ]

/-- Lookup in the hanging-punctuation table (`HANGING_PUNCTUATION_ADJUSTMENTS.get`). -/
def hangingAdj (c : Char) : Option Adj :=
  (HANGING_PUNCTUATION_ADJUSTMENTS.find? (fun p => p.1 == c)).map Prod.snd

/-- Reading an adjustment dictionary with default
`{x_offset: 0, y_offset: 0}` (`adjustments.get(char, {...})`). -/
def getAdj (adjustments : Char → Option Adj) (c : Char) : Adj :=
  (adjustments c).getD ⟨0, 0, none⟩

/-- The newline character that forces a column/line break. -/
def breakChar : Char := '\n'

/-- Inner loop of `calculate_wrap_count` (meihyo.py lines 783-811,
identical in kaisetu.py lines 920-952).  Arguments are the remaining
characters, the running `lines`, and the running `char_count`; the final
`lines` value is returned.  The source increments `lines` for a hanging
character only when it is not the last character (`i < len(text_str) - 1`),
which here is the test `rest = []`. -/
def calcGo (maxChars : ℕ) : List Char → ℕ → ℕ → ℕ
  | [], lines, _ => lines
  | c :: rest, lines, cc =>
    if c = breakChar then calcGo maxChars rest (lines + 1) 0
    else if maxChars ≤ cc ∧ c ∈ LEADING_PROHIBITED_CHARS then
      (if rest = [] then calcGo maxChars rest lines cc else calcGo maxChars rest (lines + 1) 0)
    else if maxChars ≤ cc then calcGo maxChars rest (lines + 1) 1
    else calcGo maxChars rest lines (cc + 1)

/-- `calculate_wrap_count` (meihyo.py lines 783-811): number of wrapped
columns beyond the first that `text` occupies at wrap width `max_chars`. -/
def calculate_wrap_count (text : List Char) (maxChars : ℕ) : ℕ :=
  if text = [] then 0 else calcGo maxChars text 1 0 - 1

/-- Closed form of `calcGo` on text with no break and no line-leading-prohibited
characters: each block of `maxChars` characters past the point where the running
count reaches the width adds one line. -/
theorem calcGo_clean (maxChars : ℕ) (hW : 1 ≤ maxChars) :
    ∀ (l : List Char), (∀ c ∈ l, c ∉ LEADING_PROHIBITED_CHARS ∧ c ≠ breakChar) →
    ∀ (lines cc : ℕ), cc ≤ maxChars →
    calcGo maxChars l lines cc = lines + (cc + l.length - 1) / maxChars := by
  intro l
  induction l with
  | nil =>
    intro _ lines cc hcc
    simp only [calcGo, List.length_nil, Nat.add_zero]
    have : (cc - 1) / maxChars = 0 := Nat.div_eq_of_lt (by omega)
    omega
  | cons c rest ih =>
    intro hclean lines cc hcc
    have hc := hclean c (List.mem_cons_self c rest)
    have hrest : ∀ x ∈ rest, x ∉ LEADING_PROHIBITED_CHARS ∧ x ≠ breakChar :=
      fun x hx => hclean x (List.mem_cons_of_mem c hx)
    rw [calcGo]
    rw [if_neg hc.2, if_neg (fun h => hc.1 h.2)]
    by_cases hov : maxChars ≤ cc
    · rw [if_pos hov]
      rw [ih hrest (lines + 1) 1 (by omega)]
      simp only [List.length_cons]
      have h2 : 1 + rest.length - 1 = rest.length := by omega
      have h1 : cc + (rest.length + 1) - 1 = rest.length + maxChars := by omega
      rw [h2, h1, Nat.add_div_right _ (by omega)]
      omega
    · rw [if_neg hov]
      rw [ih hrest lines (cc + 1) (by omega)]
      have h1 : cc + 1 + rest.length - 1 = cc + (rest.length + 1) - 1 := by omega
      simp only [List.length_cons, h1]

/-- C1: For a non-empty clean string (no line-leading-prohibited characters, no
explicit break character) of length `L` and wrap width `W ≥ 1`,
`calculate_wrap_count` returns `(L - 1) / W`, which equals `ceil(L / W) - 1`. -/
theorem claim_C1_wrap_count_clean (text : List Char) (maxChars : ℕ)
    (hne : text ≠ []) (hW : 1 ≤ maxChars)
    (hclean : ∀ c ∈ text, c ∉ LEADING_PROHIBITED_CHARS ∧ c ≠ breakChar) :
    calculate_wrap_count text maxChars = (text.length - 1) / maxChars ∧
    calculate_wrap_count text maxChars = (text.length + maxChars - 1) / maxChars - 1 := by
  have hlen : 1 ≤ text.length := by
    cases text with
    | nil => exact absurd rfl hne
    | cons a l => simp
  have hmain : calculate_wrap_count text maxChars = (text.length - 1) / maxChars := by
    unfold calculate_wrap_count
    rw [if_neg hne, calcGo_clean maxChars hW text hclean 1 0 (by omega)]
    have h0 : 0 + text.length - 1 = text.length - 1 := by omega
    rw [h0, Nat.add_sub_cancel_left]
  refine ⟨hmain, ?_⟩
  rw [hmain]
  have hsplit : text.length + maxChars - 1 = (text.length - 1) + maxChars := by omega
  rw [hsplit, Nat.add_div_right _ (by omega)]
  omega

/-- Witness for C1 at the spec's concrete case: width 55, length 110 gives
wrap count 1. -/
theorem claim_C1_witness :
    calculate_wrap_count (List.replicate 110 'あ') 55 = 1 :=
  ((claim_C1_wrap_count_clean (List.replicate 110 'あ') 55 (by decide)
    (by decide) (by decide)).1).trans (by decide)

/-- Default typeface (meihyo.py line 33). -/
def DEFAULT_FONT : String := "MSMincho"

/-- Fallback-typeface overrides for glyphs the primary face lacks
(meihyo.py line 27, `SPECIAL_CHARS_FONT_MAP`). -/
def SPECIAL_CHARS_FONT_MAP : List (Char × String) :=
  [ ('嵗', "MSMincho"), ('俻', "MSMincho") ]

/-- Typeface used for one character:
`SPECIAL_CHARS_FONT_MAP.get(char, DEFAULT_FONT)`. -/
def targetFont (c : Char) : String :=
  ((SPECIAL_CHARS_FONT_MAP.find? (fun p => p.1 == c)).map Prod.snd).getD DEFAULT_FONT

/-- Characters drawn rotated 270 degrees inside vertical text
(meihyo.py line 336, `ROTATED_CHARS`). -/
def ROTATED_CHARS : List Char :=
  [ '(', ')', '（', '）', '[', ']', '{', '}', '「', '」', '『', '』', 'ー', '-',
    '→', '←', '↑', '↓', '＜', '＞', '〈', '〉', '～', '!',
    'a', 'b', 'c', 'd', 'e', 'f', 'g', 'h', 'i', 'j', 'k', 'l', 'm',
    'n', 'o', 'p', 'q', 'r', 's', 't', 'u', 'v', 'w', 'x', 'y', 'z',
    'A', 'B', 'C', 'D', 'E', 'F', 'G', 'H', 'I', 'J', 'K', 'L', 'M',
    'N', 'O', 'P', 'Q', 'R', 'S', 'T', 'U', 'V', 'W', 'X', 'Y', 'Z',
    'Ａ', 'Ｂ', 'Ｃ', 'Ｄ', 'Ｅ', 'Ｆ', 'Ｇ', 'Ｈ', 'Ｉ', 'Ｊ', 'Ｋ', 'Ｌ', 'Ｍ',
    'Ｎ', 'Ｏ', 'Ｐ', 'Ｑ', 'Ｒ', 'Ｓ', 'Ｔ', 'Ｕ', 'Ｖ', 'Ｗ', 'Ｘ', 'Ｙ', 'Ｚ',
    'ａ', 'ｂ', 'ｃ', 'ｄ', 'ｅ', 'ｆ', 'ｇ', 'ｈ', 'ｉ', 'ｊ', 'ｋ', 'ｌ', 'ｍ',
    'ｎ', 'ｏ', 'ｐ', 'ｑ', 'ｒ', 'ｓ', 'ｔ', 'ｕ', 'ｖ', 'ｗ', 'ｘ', 'ｙ', 'ｚ' ]

/-- Rotation applied to one character: an `angle` entry of its adjustment wins,
otherwise membership in `ROTATED_CHARS` gives the fixed 270 degrees
(meihyo.py lines 563-575). -/
def charRotation (adj : Adj) (c : Char) : Option ℚ :=
  match adj.angle with
  | some a => some a
  | none => if c ∈ ROTATED_CHARS then some 270 else none

/-- One character-draw instruction of `draw_vertical_text`: the character, the
computed `draw_x` / `draw_y` (the position handed to `drawString`, or to the
`translate` preceding a rotated draw), its rotation, and its typeface. -/
structure DrawInst where
  ch : Char
  drawX : ℚ
  drawY : ℚ
  rotation : Option ℚ
  fontName : String
deriving DecidableEq, Repr

/-- Loop of `draw_vertical_text` (meihyo.py lines 545-581), with `i` the
enumeration index. -/
def dvtGo (x y fontSize charSpacing : ℚ) (adjustments : Char → Option Adj) :
    ℕ → List Char → List DrawInst
  | _, [] => []
  | i, c :: rest =>
    let adj := getAdj adjustments c
    ⟨c, x + adj.xOff, y - i * fontSize * charSpacing + adj.yOff,
      charRotation adj c, targetFont c⟩ ::
      dvtGo x y fontSize charSpacing adjustments (i + 1) rest

/-- `draw_vertical_text` (meihyo.py lines 545-581): vertical layout without
wrapping, as the list of character-draw instructions it issues. -/
def draw_vertical_text (text : List Char) (x y fontSize charSpacing : ℚ)
    (adjustments : Char → Option Adj) : List DrawInst :=
  dvtGo x y fontSize charSpacing adjustments 0 text

theorem dvtGo_getElem (x y fontSize charSpacing : ℚ)
    (adjustments : Char → Option Adj) :
    ∀ (l : List Char) (j i : ℕ) (c : Char), l[i]? = some c →
    (dvtGo x y fontSize charSpacing adjustments j l)[i]? =
      some ⟨c, x + (getAdj adjustments c).xOff,
        y - (j + i) * fontSize * charSpacing + (getAdj adjustments c).yOff,
        charRotation (getAdj adjustments c) c, targetFont c⟩ := by
  intro l
  induction l with
  | nil => intro j i c hc; simp at hc
  | cons a rest ih =>
    intro j i c hc
    cases i with
    | zero =>
      simp only [List.getElem?_cons_zero, Option.some.injEq] at hc
      subst hc
      simp [dvtGo]
    | succ n =>
      simp only [List.getElem?_cons_succ] at hc
      rw [dvtGo]
      simp only [List.getElem?_cons_succ]
      rw [ih (j + 1) n c hc]
      have : ((j : ℚ) + 1) + n = j + (n + 1) := by ring
      rw [Nat.cast_add, Nat.cast_add, Nat.cast_one, this]

/-- C4: In vertical layout without wrapping, the `i`-th character of the string
is drawn at `x + Δx` and `y - i·fontSize·charSpacing + Δy`, where `(Δx, Δy)` is
the character's entry in the adjustment map and `(0, 0)` when absent. -/
theorem claim_C4_vertical_positions (text : List Char) (x y fontSize charSpacing : ℚ)
    (adjustments : Char → Option Adj) (i : ℕ) (c : Char) (hc : text[i]? = some c) :
    (draw_vertical_text text x y fontSize charSpacing adjustments)[i]? =
      some ⟨c, x + (getAdj adjustments c).xOff,
        y - i * fontSize * charSpacing + (getAdj adjustments c).yOff,
        charRotation (getAdj adjustments c) c, targetFont c⟩ := by
  have h := dvtGo_getElem x y fontSize charSpacing adjustments text 0 i c hc
  unfold draw_vertical_text
  rw [h]
  norm_num

/-- Witness for C4: the character at index 2 of a concrete call, with an
adjustment entry for it. -/
theorem claim_C4_witness :
    (draw_vertical_text [ '山', '田', 'ー' ] 250 780 18 1
        (fun c => if c = 'ー' then some ⟨4, 8, none⟩ else none))[2]? =
      some ⟨'ー', 250 + (getAdj (fun c => if c = 'ー' then some ⟨4, 8, none⟩ else none) 'ー').xOff,
        780 - (2 : ℕ) * 18 * 1 + (getAdj (fun c => if c = 'ー' then some ⟨4, 8, none⟩ else none) 'ー').yOff,
        charRotation (getAdj (fun c => if c = 'ー' then some ⟨4, 8, none⟩ else none) 'ー') 'ー',
        targetFont 'ー'⟩ :=
  claim_C4_vertical_positions [ '山', '田', 'ー' ] 250 780 18 1
    (fun c => if c = 'ー' then some ⟨4, 8, none⟩ else none) 2 'ー' (by decide)

/-- Mutable state of the `draw_vertical_text_with_wrap` loop:
`current_x`, `current_y`, `char_count` (meihyo.py lines 477-478). -/
structure VState where
  curX : ℚ
  curY : ℚ
  cnt : ℕ
deriving DecidableEq, Repr

/-- One character-draw instruction of the wrapping vertical renderer.  `colX`
records the column position `current_x` at the moment of the draw (before the
per-character offset), so column occupancy can be read off the trace. -/
structure WInst where
  ch : Char
  colX : ℚ
  drawX : ℚ
  drawY : ℚ
  rotation : Option ℚ
  fontName : String
deriving DecidableEq, Repr

/-- Body of the `draw_vertical_text_with_wrap` loop for one character
(meihyo.py lines 481-543): `none` is emitted for the explicit break character,
otherwise the instruction for the drawn character, together with the updated
state.  A hanging character takes its offsets from
`HANGING_PUNCTUATION_ADJUSTMENTS` when an entry exists, has one pitch unit
added to its y position, and is followed by a column advance. -/
def vwrapStep (y0 fontSize charSpacing lineSpacing : ℚ) (maxChars : ℕ)
    (adjustments : Char → Option Adj) (st : VState) (c : Char) :
    Option WInst × VState :=
  if c = breakChar then (none, ⟨st.curX - lineSpacing, y0, 0⟩)
  else
    let isOverflow : Bool := decide (maxChars ≤ st.cnt)
    let isHanging : Bool := isOverflow && decide (c ∈ LEADING_PROHIBITED_CHARS)
    let st1 : VState :=
      if isOverflow && !isHanging then ⟨st.curX - lineSpacing, y0, 0⟩ else st
    let adj : Adj :=
      if isHanging && (hangingAdj c).isSome then (hangingAdj c).getD ⟨0, 0, none⟩
      else getAdj adjustments c
    let drawX := st1.curX + adj.xOff
    let drawY := st1.curY + adj.yOff +
      (if isHanging then fontSize * charSpacing else 0)
    let inst : WInst := ⟨c, st1.curX, drawX, drawY, charRotation adj c, targetFont c⟩
    let st2 : VState :=
      if isHanging then ⟨st1.curX - lineSpacing, y0, 0⟩
      else ⟨st1.curX, st1.curY - fontSize * charSpacing, st1.cnt + 1⟩
    (some inst, st2)

/-- The `draw_vertical_text_with_wrap` loop over the whole string. -/
def vwrapGo (y0 fontSize charSpacing lineSpacing : ℚ) (maxChars : ℕ)
    (adjustments : Char → Option Adj) : List Char → VState → List WInst
  | [], _ => []
  | c :: rest, st =>
    match vwrapStep y0 fontSize charSpacing lineSpacing maxChars adjustments st c with
    | (some inst, st2) =>
        inst :: vwrapGo y0 fontSize charSpacing lineSpacing maxChars adjustments rest st2
    | (none, st2) => vwrapGo y0 fontSize charSpacing lineSpacing maxChars adjustments rest st2

/-- `draw_vertical_text_with_wrap` (meihyo.py lines 471-543): vertical layout
with wrapping and hanging punctuation, as the list of character-draw
instructions it issues. -/
def draw_vertical_text_with_wrap (text : List Char) (x y fontSize charSpacing : ℚ)
    (maxChars : ℕ) (lineSpacing : ℚ) (adjustments : Char → Option Adj) : List WInst :=
  vwrapGo y fontSize charSpacing lineSpacing maxChars adjustments text ⟨x, y, 0⟩

theorem mem_leading_ne_break {c : Char} (h : c ∈ LEADING_PROHIBITED_CHARS) :
    c ≠ breakChar := by
  fin_cases h <;> decide

/-- C2: When the per-column count has reached `max_chars` and the next
character is line-leading-prohibited, the renderer draws it in the current
column (column x unchanged, so never at the head of a new column), with offsets
from the hanging-adjustment map when an entry exists (otherwise from the
ordinary map), with one pitch unit `fontSize · charSpacing` added to its y
position, and then advances the column: x decreases by `lineSpacing`, y resets
to the origin, and the count resets to 0. -/
theorem claim_C2_hanging_draw (y0 fontSize charSpacing lineSpacing : ℚ)
    (maxChars : ℕ) (adjustments : Char → Option Adj) (st : VState) (c : Char)
    (hcnt : maxChars ≤ st.cnt) (hc : c ∈ LEADING_PROHIBITED_CHARS) :
    ∃ inst : WInst,
      (vwrapStep y0 fontSize charSpacing lineSpacing maxChars adjustments st c).1 =
        some inst ∧
      inst.ch = c ∧
      inst.colX = st.curX ∧
      (∀ a : Adj, hangingAdj c = some a →
        inst.drawX = st.curX + a.xOff ∧
        inst.drawY = st.curY + a.yOff + fontSize * charSpacing) ∧
      (hangingAdj c = none →
        inst.drawX = st.curX + (getAdj adjustments c).xOff ∧
        inst.drawY = st.curY + (getAdj adjustments c).yOff + fontSize * charSpacing) ∧
      (vwrapStep y0 fontSize charSpacing lineSpacing maxChars adjustments st c).2 =
        ⟨st.curX - lineSpacing, y0, 0⟩ := by
  have hne : c ≠ breakChar := mem_leading_ne_break hc
  have hov : decide (maxChars ≤ st.cnt) = true := decide_eq_true hcnt
  have hmem : decide (c ∈ LEADING_PROHIBITED_CHARS) = true := decide_eq_true hc
  unfold vwrapStep
  rw [if_neg hne]
  simp only [hov, hmem, Bool.and_self, Bool.true_and, Bool.not_true,
    Bool.and_false, Bool.false_and, if_neg (Bool.false_ne_true), if_pos rfl]
  refine ⟨_, rfl, rfl, rfl, ?_, ?_, rfl⟩
  · intro a ha
    rw [if_pos (by simp [ha])]
    simp [ha]
  · intro ha
    rw [if_neg (by simp [ha])]
    exact ⟨rfl, rfl⟩

/-- Witness for C2: a concrete hanging full stop at the bottom of a full
column. -/
theorem claim_C2_witness :
    ∃ inst : WInst,
      (vwrapStep 786 10 1 20 55 (fun _ => none) ⟨152, 236, 55⟩ '。').1 = some inst ∧
      inst.ch = '。' ∧
      inst.colX = 152 ∧
      (∀ a : Adj, hangingAdj '。' = some a →
        inst.drawX = 152 + a.xOff ∧ inst.drawY = 236 + a.yOff + 10 * 1) ∧
      (hangingAdj '。' = none →
        inst.drawX = 152 + (getAdj (fun _ => none) '。').xOff ∧
        inst.drawY = 236 + (getAdj (fun _ => none) '。').yOff + 10 * 1) ∧
      (vwrapStep 786 10 1 20 55 (fun _ => none) ⟨152, 236, 55⟩ '。').2 =
        ⟨152 - 20, 786, 0⟩ :=
  claim_C2_hanging_draw 786 10 1 20 55 (fun _ => none) ⟨152, 236, 55⟩ '。'
    (by decide) (by decide)

theorem vwrapStep_break (y0 fontSize charSpacing lineSpacing : ℚ) (maxChars : ℕ)
    (adjustments : Char → Option Adj) (st : VState) :
    vwrapStep y0 fontSize charSpacing lineSpacing maxChars adjustments st breakChar =
      (none, ⟨st.curX - lineSpacing, y0, 0⟩) := by
  unfold vwrapStep
  rw [if_pos rfl]

theorem vwrapStep_plain (y0 fontSize charSpacing lineSpacing : ℚ) (maxChars : ℕ)
    (adjustments : Char → Option Adj) (st : VState) (c : Char)
    (h1 : c ≠ breakChar) (h2 : ¬ maxChars ≤ st.cnt) :
    ∃ inst : WInst,
      vwrapStep y0 fontSize charSpacing lineSpacing maxChars adjustments st c =
        (some inst, ⟨st.curX, st.curY - fontSize * charSpacing, st.cnt + 1⟩) ∧
      inst.colX = st.curX := by
  have hov : decide (maxChars ≤ st.cnt) = false := decide_eq_false h2
  unfold vwrapStep
  rw [if_neg h1]
  simp only [hov, Bool.false_and, Bool.not_false, Bool.and_true,
    if_neg (Bool.false_ne_true), if_pos rfl]
  exact ⟨_, rfl, rfl⟩

theorem vwrapStep_overflow (y0 fontSize charSpacing lineSpacing : ℚ) (maxChars : ℕ)
    (adjustments : Char → Option Adj) (st : VState) (c : Char)
    (h1 : c ≠ breakChar) (h2 : maxChars ≤ st.cnt) (h3 : c ∉ LEADING_PROHIBITED_CHARS) :
    ∃ inst : WInst,
      vwrapStep y0 fontSize charSpacing lineSpacing maxChars adjustments st c =
        (some inst, ⟨st.curX - lineSpacing, y0 - fontSize * charSpacing, 1⟩) ∧
      inst.colX = st.curX - lineSpacing := by
  have hov : decide (maxChars ≤ st.cnt) = true := decide_eq_true h2
  have hmem : decide (c ∈ LEADING_PROHIBITED_CHARS) = false := decide_eq_false h3
  unfold vwrapStep
  rw [if_neg h1]
  simp only [hov, hmem, Bool.true_and, Bool.and_false, Bool.not_false,
    Bool.and_true, if_pos rfl, if_neg (Bool.false_ne_true)]
  exact ⟨_, rfl, rfl⟩

theorem vwrapStep_hanging (y0 fontSize charSpacing lineSpacing : ℚ) (maxChars : ℕ)
    (adjustments : Char → Option Adj) (st : VState) (c : Char)
    (h2 : maxChars ≤ st.cnt) (h3 : c ∈ LEADING_PROHIBITED_CHARS) :
    ∃ inst : WInst,
      vwrapStep y0 fontSize charSpacing lineSpacing maxChars adjustments st c =
        (some inst, ⟨st.curX - lineSpacing, y0, 0⟩) ∧
      inst.colX = st.curX := by
  have h1 : c ≠ breakChar := mem_leading_ne_break h3
  have hov : decide (maxChars ≤ st.cnt) = true := decide_eq_true h2
  have hmem : decide (c ∈ LEADING_PROHIBITED_CHARS) = true := decide_eq_true h3
  unfold vwrapStep
  rw [if_neg h1]
  simp only [hov, hmem, Bool.and_self, Bool.true_and, Bool.not_true,
    Bool.and_false, if_neg (Bool.false_ne_true), if_pos rfl]
  exact ⟨_, rfl, rfl⟩

/-- The running `lines` counter of `calculate_wrap_count` never decreases. -/
theorem calcGo_ge (maxChars : ℕ) :
    ∀ (l : List Char) (lines cc : ℕ), lines ≤ calcGo maxChars l lines cc := by
  intro l
  induction l with
  | nil => intro lines cc; simp [calcGo]
  | cons c rest ih =>
    intro lines cc
    rw [calcGo]
    split_ifs with h1 h2 h3 h4
    · exact le_trans (by omega) (ih (lines + 1) 0)
    · exact ih lines cc
    · exact le_trans (by omega) (ih (lines + 1) 0)
    · exact le_trans (by omega) (ih (lines + 1) 1)
    · exact ih lines (cc + 1)

theorem cast_sub_succ {r lines : ℕ} (h : lines + 1 ≤ r) :
    ((r - lines : ℕ) : ℚ) = ((r - (lines + 1) : ℕ) : ℚ) + 1 := by
  have heq : r - lines = (r - (lines + 1)) + 1 := by omega
  rw [heq]
  push_cast
  ring

/-- Joint invariant of the renderer and the counter: starting from column
position `cx` with matching `char_count`, the renderer's deepest drawn column
is displaced from `cx` by exactly `calcGo … - lines` line spacings, and every
drawn character sits at a displacement between `0` and that value — provided
the string is non-empty and does not end in the break character. -/
theorem vwrap_calcGo_cols (y0 fontSize charSpacing lineSpacing : ℚ) (maxChars : ℕ)
    (adjustments : Char → Option Adj) :
    ∀ (l : List Char), l ≠ [] → l.getLast? ≠ some breakChar →
    ∀ (lines cc : ℕ) (cx cy : ℚ),
    (∃ inst ∈ vwrapGo y0 fontSize charSpacing lineSpacing maxChars adjustments l ⟨cx, cy, cc⟩,
      inst.colX = cx - ((calcGo maxChars l lines cc - lines : ℕ) : ℚ) * lineSpacing) ∧
    (∀ inst ∈ vwrapGo y0 fontSize charSpacing lineSpacing maxChars adjustments l ⟨cx, cy, cc⟩,
      ∃ k : ℕ, k ≤ calcGo maxChars l lines cc - lines ∧
        inst.colX = cx - (k : ℚ) * lineSpacing) := by
  intro l
  induction l with
  | nil => intro h; exact absurd rfl h
  | cons c rest ih =>
    intro _ hlast lines cc cx cy
    by_cases hrest : rest = []
    · subst hrest
      have hc : c ≠ breakChar := by
        intro h
        exact hlast (by rw [h]; rfl)
      by_cases hov : maxChars ≤ cc
      · by_cases hmem : c ∈ LEADING_PROHIBITED_CHARS
        · -- hanging, last character: no line increment, drawn in current column
          obtain ⟨inst, hstep, hcol⟩ := vwrapStep_hanging y0 fontSize charSpacing
            lineSpacing maxChars adjustments ⟨cx, cy, cc⟩ c hov hmem
          rw [calcGo, if_neg hc, if_pos ⟨hov, hmem⟩, if_pos rfl]
          rw [vwrapGo, hstep]
          simp only [calcGo, Nat.sub_self, Nat.cast_zero, zero_mul, sub_zero]
          exact ⟨⟨inst, by simp, hcol⟩,
            fun i hi => by
              simp only [vwrapGo, List.mem_singleton] at hi
              exact ⟨0, by omega, by rw [hi, hcol]; push_cast; ring⟩⟩
        · -- overflow, last character: one advance, drawn in the new column
          obtain ⟨inst, hstep, hcol⟩ := vwrapStep_overflow y0 fontSize charSpacing
            lineSpacing maxChars adjustments ⟨cx, cy, cc⟩ c hc hov hmem
          rw [calcGo, if_neg hc, if_neg (fun h => hmem h.2), if_pos hov]
          rw [vwrapGo, hstep]
          simp only [calcGo]
          have hsub : lines + 1 - lines = 1 := by omega
          rw [hsub]
          exact ⟨⟨inst, by simp, by rw [hcol]; push_cast; ring⟩,
            fun i hi => by
              simp only [vwrapGo, List.mem_singleton] at hi
              exact ⟨1, by omega, by rw [hi, hcol]; push_cast; ring⟩⟩
      · -- plain, last character: drawn in the current column
        obtain ⟨inst, hstep, hcol⟩ := vwrapStep_plain y0 fontSize charSpacing
          lineSpacing maxChars adjustments ⟨cx, cy, cc⟩ c hc hov
        rw [calcGo, if_neg hc, if_neg (fun h => hov h.1), if_neg hov]
        rw [vwrapGo, hstep]
        simp only [calcGo, Nat.sub_self, Nat.cast_zero, zero_mul, sub_zero]
        exact ⟨⟨inst, by simp, hcol⟩,
          fun i hi => by
            simp only [vwrapGo, List.mem_singleton] at hi
            exact ⟨0, by omega, by rw [hi, hcol]; push_cast; ring⟩⟩
    · have hlast' : rest.getLast? ≠ some breakChar := by
        obtain ⟨b, t, hbt⟩ := List.exists_cons_of_ne_nil hrest
        subst hbt
        rwa [List.getLast?_cons_cons] at hlast
      by_cases hc : c = breakChar
      · -- explicit break: advance, nothing drawn, counter incremented
        subst hc
        rw [vwrapGo, vwrapStep_break]
        rw [calcGo, if_pos rfl]
        have hge := calcGo_ge maxChars rest (lines + 1) 0
        obtain ⟨⟨inst, hmem₁, hcol₁⟩, hall⟩ := ih hrest hlast' (lines + 1) 0
          (cx - lineSpacing) y0
        refine ⟨⟨inst, hmem₁, ?_⟩, fun i hi => ?_⟩
        · rw [hcol₁, cast_sub_succ hge]
          ring
        · obtain ⟨k, hk, hcolk⟩ := hall i hi
          refine ⟨k + 1, by omega, ?_⟩
          rw [hcolk]
          push_cast
          ring
      · by_cases hov : maxChars ≤ cc
        · by_cases hmem : c ∈ LEADING_PROHIBITED_CHARS
          · -- hanging mid-string: drawn in the current column, then advance
            obtain ⟨inst, hstep, hcol⟩ := vwrapStep_hanging y0 fontSize charSpacing
              lineSpacing maxChars adjustments ⟨cx, cy, cc⟩ c hov hmem
            rw [calcGo, if_neg hc, if_pos ⟨hov, hmem⟩, if_neg hrest]
            rw [vwrapGo, hstep]
            have hge := calcGo_ge maxChars rest (lines + 1) 0
            obtain ⟨⟨inst₁, hmem₁, hcol₁⟩, hall⟩ := ih hrest hlast' (lines + 1) 0
              (cx - lineSpacing) y0
            refine ⟨⟨inst₁, List.mem_cons_of_mem _ hmem₁, ?_⟩, fun i hi => ?_⟩
            · rw [hcol₁, cast_sub_succ hge]
              ring
            · rcases List.mem_cons.mp hi with hi | hi
              · exact ⟨0, by omega, by rw [hi, hcol]; push_cast; ring⟩
              · obtain ⟨k, hk, hcolk⟩ := hall i hi
                refine ⟨k + 1, by omega, ?_⟩
                rw [hcolk]
                push_cast
                ring
          · -- overflow mid-string: advance, then drawn in the new column
            obtain ⟨inst, hstep, hcol⟩ := vwrapStep_overflow y0 fontSize charSpacing
              lineSpacing maxChars adjustments ⟨cx, cy, cc⟩ c hc hov hmem
            rw [calcGo, if_neg hc, if_neg (fun h => hmem h.2), if_pos hov]
            rw [vwrapGo, hstep]
            have hge := calcGo_ge maxChars rest (lines + 1) 1
            obtain ⟨⟨inst₁, hmem₁, hcol₁⟩, hall⟩ := ih hrest hlast' (lines + 1) 1
              (cx - lineSpacing) (y0 - fontSize * charSpacing)
            refine ⟨⟨inst₁, List.mem_cons_of_mem _ hmem₁, ?_⟩, fun i hi => ?_⟩
            · rw [hcol₁, cast_sub_succ hge]
              ring
            · rcases List.mem_cons.mp hi with hi | hi
              · exact ⟨1, by omega, by rw [hi, hcol]; push_cast; ring⟩
              · obtain ⟨k, hk, hcolk⟩ := hall i hi
                refine ⟨k + 1, by omega, ?_⟩
                rw [hcolk]
                push_cast
                ring
        · -- plain mid-string: drawn in the current column, no advance
          obtain ⟨inst, hstep, hcol⟩ := vwrapStep_plain y0 fontSize charSpacing
            lineSpacing maxChars adjustments ⟨cx, cy, cc⟩ c hc hov
          rw [calcGo, if_neg hc, if_neg (fun h => hov h.1), if_neg hov]
          rw [vwrapGo, hstep]
          have hge := calcGo_ge maxChars rest lines (cc + 1)
          obtain ⟨⟨inst₁, hmem₁, hcol₁⟩, hall⟩ := ih hrest hlast' lines (cc + 1)
            cx (cy - fontSize * charSpacing)
          refine ⟨⟨inst₁, List.mem_cons_of_mem _ hmem₁, hcol₁⟩, fun i hi => ?_⟩
          rcases List.mem_cons.mp hi with hi | hi
          · exact ⟨0, by omega, by rw [hi, hcol]; push_cast; ring⟩
          · exact hall i hi

/-- C3 (amended): For every string that is non-empty and does not end in the
explicit break character, `calculate_wrap_count` equals the largest column
index (displacement of the column x by `k · lineSpacing`) at which
`draw_vertical_text_with_wrap` draws at least one character: some character is
drawn at displacement `calculate_wrap_count` and every character at a
displacement between `0` and it.  For the empty string the count is `0` and
nothing is drawn.  (For a string ending in the break character the count
exceeds the deepest drawn column — see the counterexample.) -/
theorem claim_C3_wrap_count_matches_renderer (x y fontSize charSpacing : ℚ)
    (maxChars : ℕ) (lineSpacing : ℚ) (adjustments : Char → Option Adj) :
    (∀ text : List Char, text ≠ [] → text.getLast? ≠ some breakChar →
      (∃ inst ∈ draw_vertical_text_with_wrap text x y fontSize charSpacing
          maxChars lineSpacing adjustments,
        inst.colX = x - ((calculate_wrap_count text maxChars : ℕ) : ℚ) * lineSpacing) ∧
      (∀ inst ∈ draw_vertical_text_with_wrap text x y fontSize charSpacing
          maxChars lineSpacing adjustments,
        ∃ k : ℕ, k ≤ calculate_wrap_count text maxChars ∧
          inst.colX = x - (k : ℚ) * lineSpacing)) ∧
    calculate_wrap_count [] maxChars = 0 ∧
    draw_vertical_text_with_wrap [] x y fontSize charSpacing maxChars
      lineSpacing adjustments = [] := by
  refine ⟨fun text hne hlast => ?_, rfl, rfl⟩
  have h := vwrap_calcGo_cols y fontSize charSpacing lineSpacing maxChars
    adjustments text hne hlast 1 0 x y
  unfold calculate_wrap_count
  rw [if_neg hne]
  exact h

/-- Counterexample to C3 as stated: for a string ending in the explicit break
character the counting function reports one more column than the renderer ever
draws in — here the count is 1 but every drawn character sits in column 0. -/
theorem claim_C3_counterexample :
    calculate_wrap_count [ 'a', '\n' ] 55 = 1 ∧
    (∀ inst ∈ draw_vertical_text_with_wrap [ 'a', '\n' ] 152 786 10 1 55 20
        (fun _ => none),
      inst.colX ≠ 152 - (1 : ℚ) * 20) := by
  refine ⟨by decide, ?_⟩
  obtain ⟨inst0, hstep0, hcol0⟩ := vwrapStep_plain 786 10 1 20 55 (fun _ => none)
    ⟨152, 786, 0⟩ 'a' (by decide) (by decide)
  have hb : vwrapStep 786 10 1 20 55 (fun _ => none) ⟨152, 786 - 10 * 1, 0 + 1⟩ '\n' =
      (none, ⟨152 - 20, 786, 0⟩) :=
    vwrapStep_break 786 10 1 20 55 (fun _ => none) ⟨152, 786 - 10 * 1, 0 + 1⟩
  intro inst hi
  unfold draw_vertical_text_with_wrap at hi
  simp only [vwrapGo, hstep0, hb, List.mem_cons,
    List.not_mem_nil, or_false] at hi
  subst hi
  rw [hcol0]
  norm_num

/-- Witness for C3 (amended) on a concrete wrapped string. -/
theorem claim_C3_witness :
    (∃ inst ∈ draw_vertical_text_with_wrap [ 'あ', 'い', 'う' ] 152 786 10 1 1 20
        (fun _ => none),
      inst.colX = 152 - ((calculate_wrap_count [ 'あ', 'い', 'う' ] 1 : ℕ) : ℚ) * 20) ∧
    (∀ inst ∈ draw_vertical_text_with_wrap [ 'あ', 'い', 'う' ] 152 786 10 1 1 20
        (fun _ => none),
      ∃ k : ℕ, k ≤ calculate_wrap_count [ 'あ', 'い', 'う' ] 1 ∧
        inst.colX = 152 - (k : ℚ) * 20) :=
  (claim_C3_wrap_count_matches_renderer 152 786 10 1 1 20 (fun _ => none)).1
    [ 'あ', 'い', 'う' ] (by decide) (by decide)

/-- Position of the first break character in a window, as computed by
`text_str.find(chr(10), start, end)` relative to `start` (the window is
`s.take maxChars` at the call sites). -/
def findNL : List Char → Option ℕ
  | [] => none
  | c :: rest => if c = breakChar then some 0 else (findNL rest).map (fun n => n + 1)

/-- The end of the next emitted line when no break character is in the window:
`max_chars`, extended by one when the character just past the window is
line-leading-prohibited (meihyo.py lines 607-608). -/
def wrapEnd (maxChars : ℕ) (s : List Char) : ℕ :=
  if s.getD maxChars ' ' ∈ LEADING_PROHIBITED_CHARS then maxChars + 1 else maxChars

/-- The `while start < len(text_str)` line-splitting loop shared by
`draw_horizontal_text_with_wrap` (meihyo.py lines 595-612) and
`draw_centered_horizontal_text_with_wrap` (meihyo.py lines 633-650), which
duplicate it verbatim; `s` is the remaining suffix `text_str[start:]`.  The
fuel argument only bounds the iteration count: each iteration consumes at
least one character whenever `max_chars ≥ 1`, so `s.length` fuel is enough
(the source loop does not terminate at all for `max_chars = 0`). -/
def wrapLinesGo (maxChars : ℕ) : ℕ → List Char → List (List Char)
  | 0, _ => []
  | fuel + 1, s =>
    if s = [] then []
    else if s.length ≤ maxChars then [s]
    else
      match findNL (s.take maxChars) with
      | some p => s.take p :: wrapLinesGo maxChars fuel (s.drop (p + 1))
      | none => s.take (wrapEnd maxChars s) ::
          wrapLinesGo maxChars fuel (s.drop (wrapEnd maxChars s))

/-- The list `lines` built by the horizontal-wrap loops. -/
def wrapLines (maxChars : ℕ) (s : List Char) : List (List Char) :=
  wrapLinesGo maxChars s.length s

/-- One emitted line of the horizontal renderers: its text and draw position. -/
structure HLine where
  lineChars : List Char
  lineX : ℚ
  lineY : ℚ
deriving DecidableEq, Repr

/-- `draw_horizontal_text_with_wrap` (meihyo.py lines 583-619): the lines it
draws, left-aligned at `x`, stacked at `line_height` pitch.  The source also
accepts an `adjustments` argument it never reads. -/
def draw_horizontal_text_with_wrap (text : List Char) (x y : ℚ)
    (_fontName : String) (_fontSize : ℚ) (maxChars : ℕ) (lineHeight : ℚ) : List HLine :=
  (wrapLines maxChars text).enum.map (fun p => ⟨p.2, x, y - (p.1 : ℚ) * lineHeight⟩)

/-- `draw_centered_horizontal_text_with_wrap` (meihyo.py lines 621-659): the
same line splitting, each line centered on `x` using the measured string width
(`pdfmetrics.stringWidth`, modelled as the function argument). -/
def draw_centered_horizontal_text_with_wrap (stringWidthFn : List Char → ℚ)
    (text : List Char) (x y : ℚ) (_fontName : String) (_fontSize : ℚ)
    (maxChars : ℕ) (lineHeight : ℚ) : List HLine :=
  (wrapLines maxChars text).enum.map
    (fun p => ⟨p.2, x - stringWidthFn p.2 / 2, y - (p.1 : ℚ) * lineHeight⟩)

theorem findNL_lt_length : ∀ (l : List Char) (p : ℕ), findNL l = some p → p < l.length := by
  intro l
  induction l with
  | nil => intro p h; simp [findNL] at h
  | cons c rest ih =>
    intro p h
    rw [findNL] at h
    by_cases hc : c = breakChar
    · rw [if_pos hc] at h
      simp only [Option.some.injEq] at h
      simp only [List.length_cons]
      omega
    · rw [if_neg hc] at h
      cases hq : findNL rest with
      | none => rw [hq] at h; exact Option.noConfusion h
      | some q =>
        rw [hq] at h
        simp only [Option.map_some', Option.some.injEq] at h
        have := ih q hq
        simp only [List.length_cons]
        omega

theorem findNL_decomp_self : ∀ (l : List Char) (p : ℕ), findNL l = some p →
    l.take p ++ breakChar :: l.drop (p + 1) = l := by
  intro l
  induction l with
  | nil => intro p h; simp [findNL] at h
  | cons c rest ih =>
    intro p h
    rw [findNL] at h
    by_cases hc : c = breakChar
    · rw [if_pos hc] at h
      simp only [Option.some.injEq] at h
      subst hc
      rw [← h]
      simp
    · rw [if_neg hc] at h
      cases hq : findNL rest with
      | none => rw [hq] at h; exact Option.noConfusion h
      | some q =>
        rw [hq] at h
        simp only [Option.map_some', Option.some.injEq] at h
        subst h
        simp only [List.take_succ_cons, List.drop_succ_cons, List.cons_append,
          List.cons.injEq, true_and]
        exact ih q hq

/-- A break character found in the take-window splits the whole string. -/
theorem findNL_decomp (s : List Char) (m p : ℕ) (h : findNL (s.take m) = some p) :
    s.take p ++ breakChar :: s.drop (p + 1) = s := by
  have hp := findNL_lt_length (s.take m) p h
  rw [List.length_take] at hp
  have hpm : p + 1 ≤ m := by omega
  have hd := findNL_decomp_self (s.take m) p h
  rw [List.take_take, min_eq_left (by omega)] at hd
  have hdrop : (s.take m).drop (p + 1) ++ s.drop m = s.drop (p + 1) := by
    rw [List.drop_take]
    have : s.drop m = ((s.drop (p + 1)).drop (m - (p + 1))) := by
      rw [List.drop_drop]
      congr 1
      omega
    rw [this]
    exact List.take_append_drop _ _
  calc s.take p ++ breakChar :: s.drop (p + 1)
      = s.take p ++ breakChar :: ((s.take m).drop (p + 1) ++ s.drop m) := by rw [hdrop]
    _ = (s.take p ++ breakChar :: (s.take m).drop (p + 1)) ++ s.drop m := by simp
    _ = s.take m ++ s.drop m := by rw [hd]
    _ = s := List.take_append_drop m s

/-- Concatenating the emitted lines and deleting break characters reproduces
the input with its break characters deleted. -/
theorem wrapLinesGo_join_filter (maxChars : ℕ) (hW : 1 ≤ maxChars) :
    ∀ (fuel : ℕ) (s : List Char), s.length ≤ fuel →
    ((wrapLinesGo maxChars fuel s).flatten).filter (fun c => !(c == breakChar)) =
      s.filter (fun c => !(c == breakChar)) := by
  intro fuel
  induction fuel with
  | zero =>
    intro s hs
    have : s = [] := List.eq_nil_of_length_eq_zero (by omega)
    subst this
    simp [wrapLinesGo]
  | succ n ih =>
    intro s hs
    rw [wrapLinesGo]
    by_cases hnil : s = []
    · subst hnil; simp
    · rw [if_neg hnil]
      by_cases hshort : s.length ≤ maxChars
      · rw [if_pos hshort]
        simp
      · rw [if_neg hshort]
        cases hfind : findNL (s.take maxChars) with
        | some p =>
          have hp := findNL_lt_length (s.take maxChars) p hfind
          rw [List.length_take] at hp
          have hrec := ih (s.drop (p + 1)) (by rw [List.length_drop]; omega)
          simp only [List.flatten_cons, List.filter_append, hrec]
          conv_rhs => rw [← findNL_decomp s maxChars p hfind]
          simp [List.filter_append, List.filter_cons]
        | none =>
          have hrec := ih (s.drop (wrapEnd maxChars s))
            (by rw [List.length_drop]; unfold wrapEnd; split_ifs <;> omega)
          simp only [List.flatten_cons, List.filter_append, hrec]
          rw [← List.filter_append, List.take_append_drop]

/-- Every emitted line has at most `max_chars + 1` characters (`max_chars`
plus at most one deferred hanging character). -/
theorem wrapLinesGo_line_length (maxChars : ℕ) :
    ∀ (fuel : ℕ) (s : List Char), ∀ line ∈ wrapLinesGo maxChars fuel s,
    line.length ≤ maxChars + 1 := by
  intro fuel
  induction fuel with
  | zero => intro s line h; simp [wrapLinesGo] at h
  | succ n ih =>
    intro s line h
    rw [wrapLinesGo] at h
    by_cases hnil : s = []
    · rw [if_pos hnil] at h; simp at h
    · rw [if_neg hnil] at h
      by_cases hshort : s.length ≤ maxChars
      · rw [if_pos hshort] at h
        simp only [List.mem_singleton] at h
        subst h
        omega
      · rw [if_neg hshort] at h
        cases hfind : findNL (s.take maxChars) with
        | some p =>
          rw [hfind] at h
          rcases List.mem_cons.mp h with h | h
          · subst h
            have hp := findNL_lt_length (s.take maxChars) p hfind
            rw [List.length_take] at hp
            rw [List.length_take]
            omega
          · exact ih _ line h
        | none =>
          rw [hfind] at h
          rcases List.mem_cons.mp h with h | h
          · subst h
            rw [List.length_take]
            unfold wrapEnd
            split_ifs <;> omega
          · exact ih _ line h

/-- C5 (amended): Both horizontal wrapped renderers emit exactly the lines
produced by the shared splitting loop; each emitted line has at most
`max_chars` characters plus at most one deferred hanging character; when more
than `max_chars` characters remain, a break character inside the next
`max_chars` characters ends the line there with the break character dropped,
and a line-leading-prohibited character just past the window defers the break
by exactly one character; a remainder of at most `max_chars` characters is
emitted verbatim as the final line (even if it contains a break character —
see the counterexample); and the concatenated lines with break characters
deleted reproduce the input with break characters deleted. -/
theorem claim_C5_horizontal_wrap (text : List Char) (maxChars : ℕ)
    (hW : 1 ≤ maxChars) (x y fontSize lineHeight : ℚ) (fontName : String)
    (stringWidthFn : List Char → ℚ) :
    ((draw_horizontal_text_with_wrap text x y fontName fontSize maxChars
        lineHeight).map HLine.lineChars = wrapLines maxChars text) ∧
    ((draw_centered_horizontal_text_with_wrap stringWidthFn text x y fontName
        fontSize maxChars lineHeight).map HLine.lineChars = wrapLines maxChars text) ∧
    (((wrapLines maxChars text).flatten).filter (fun c => !(c == breakChar)) =
      text.filter (fun c => !(c == breakChar))) ∧
    (∀ line ∈ wrapLines maxChars text, line.length ≤ maxChars + 1) ∧
    (∀ p : ℕ, maxChars < text.length → findNL (text.take maxChars) = some p →
      (wrapLines maxChars text).head? = some (text.take p)) ∧
    (maxChars < text.length → findNL (text.take maxChars) = none →
      text.getD maxChars ' ' ∈ LEADING_PROHIBITED_CHARS →
      (wrapLines maxChars text).head? = some (text.take (maxChars + 1))) ∧
    (text ≠ [] → text.length ≤ maxChars → wrapLines maxChars text = [ text ]) := by
  have hmap : ∀ l : List (List Char), ∀ f : ℕ × List Char → HLine,
      (∀ p : ℕ × List Char, (f p).lineChars = p.2) → (l.enum.map f).map HLine.lineChars = l := by
    intro l f hf
    rw [List.map_map]
    have : (HLine.lineChars ∘ f) = Prod.snd := funext fun p => hf p
    rw [this, List.enum_map_snd]
  have hunfold : ∀ fuel : ℕ, text.length = fuel + 1 → maxChars < text.length →
      wrapLines maxChars text = wrapLinesGo maxChars (fuel + 1) text := by
    intro fuel hf _
    rw [wrapLines, hf]
  refine ⟨hmap _ _ fun p => rfl, hmap _ _ fun p => rfl,
    wrapLinesGo_join_filter maxChars hW text.length text le_rfl,
    wrapLinesGo_line_length maxChars text.length text, ?_, ?_, ?_⟩
  · intro p hlong hfind
    obtain ⟨fuel, hf⟩ : ∃ fuel, text.length = fuel + 1 := ⟨text.length - 1, by omega⟩
    rw [hunfold fuel hf hlong, wrapLinesGo,
      if_neg (fun h => by rw [h] at hf; simp at hf),
      if_neg (by omega), hfind]
    rfl
  · intro hlong hfind hhang
    obtain ⟨fuel, hf⟩ : ∃ fuel, text.length = fuel + 1 := ⟨text.length - 1, by omega⟩
    rw [hunfold fuel hf hlong, wrapLinesGo,
      if_neg (fun h => by rw [h] at hf; simp at hf),
      if_neg (by omega), hfind]
    rw [wrapEnd, if_pos hhang]
    rfl
  · intro hne hshort
    obtain ⟨fuel, hf⟩ : ∃ fuel, text.length = fuel + 1 := by
      refine ⟨text.length - 1, ?_⟩
      have : text.length ≠ 0 := fun h => hne (List.eq_nil_of_length_eq_zero h)
      omega
    rw [wrapLines, hf, wrapLinesGo, if_neg hne, if_pos (by omega)]

/-- Counterexample to C5 as stated: when the whole remaining text fits in one
line, the loop takes the `end >= len` branch without searching for a break
character, so a break character within the next `max_chars` characters does
not end the line and is emitted verbatim inside it. -/
theorem claim_C5_counterexample :
    (draw_horizontal_text_with_wrap [ 'a', '\n', 'b' ] 25 170 "MSMincho" 10 3 12).map
        HLine.lineChars = [ [ 'a', '\n', 'b' ] ] ∧
    breakChar ∈ [ 'a', '\n', 'b' ] ∧
    ([ [ 'a', '\n', 'b' ] ] : List (List Char)) ≠ [ [ 'a' ], [ 'b' ] ] := by
  refine ⟨?_, by decide, by decide⟩
  have h : (wrapLines 3 [ 'a', '\n', 'b' ] ) = [ [ 'a', '\n', 'b' ] ] := by decide
  unfold draw_horizontal_text_with_wrap
  rw [h]
  rfl

/-- Witness for C5 (amended) at a concrete split with a break and a deferral. -/
theorem claim_C5_witness :
    ((draw_horizontal_text_with_wrap [ 'a', 'b', '\n', 'c', '、', 'd', 'e' ] 25 170
        "MSMincho" 10 2 12).map HLine.lineChars =
      wrapLines 2 [ 'a', 'b', '\n', 'c', '、', 'd', 'e' ]) ∧
    (((wrapLines 2 [ 'a', 'b', '\n', 'c', '、', 'd', 'e' ]).flatten).filter
        (fun c => !(c == breakChar)) =
      ([ 'a', 'b', '\n', 'c', '、', 'd', 'e' ] : List Char).filter
        (fun c => !(c == breakChar))) ∧
    (∀ line ∈ wrapLines 2 [ 'a', 'b', '\n', 'c', '、', 'd', 'e' ], line.length ≤ 2 + 1) := by
  have h := claim_C5_horizontal_wrap [ 'a', 'b', '\n', 'c', '、', 'd', 'e' ] 2
    (by decide) 25 170 10 12 "MSMincho" (fun _ => 0)
  exact ⟨h.1, h.2.2.1, h.2.2.2.1⟩

/-- Emulated bold is enabled (meihyo.py line 19, `USE_BOLD = True`). -/
def USE_BOLD : Bool := true

/-- Stroke width as a fraction of the font size for emulated bold
(meihyo.py line 23, `BOLD_WIDTH_RATIO = 0.05`). -/
def boldWidthRatio : ℚ := 1 / 20

/-- Raw PDF operator switching to simultaneous fill-and-stroke text rendering
(the `canvas._code.append` literal in the source). -/
def trFillStroke : String := "2 Tr"

/-- Raw PDF operator reverting to fill-only text rendering. -/
def trFillOnly : String := "0 Tr"

/-- One operation issued to the reportlab canvas, at the granularity the
source calls it. -/
inductive CanvasOp where
  | setFontOp : String → ℚ → CanvasOp
  | setLineWidthOp : ℚ → CanvasOp
  | setStrokeColorOp : CanvasOp
  | rawCodeOp : String → CanvasOp
  | saveStateOp : CanvasOp
  | translateOp : ℚ → ℚ → CanvasOp
  | rotateOp : ℚ → CanvasOp
  | drawStringOp : ℚ → ℚ → List Char → CanvasOp
  | restoreStateOp : CanvasOp
deriving DecidableEq, Repr

/-- The operations of the `if USE_BOLD:` block before a character draw
(set line width, set stroke color, append the fill-and-stroke operator). -/
def boldPre (fontSize : ℚ) : List CanvasOp :=
  if USE_BOLD then
    [ CanvasOp.setLineWidthOp (fontSize * boldWidthRatio),
      CanvasOp.setStrokeColorOp, CanvasOp.rawCodeOp trFillStroke ]
  else []

/-- The operation of the `if USE_BOLD:` block after a character draw
(append the fill-only operator). -/
def boldPost : List CanvasOp :=
  if USE_BOLD then [ CanvasOp.rawCodeOp trFillOnly ] else []

/-- The canvas calls that actually place one character: either the
save/translate/rotate/draw/restore sequence for a rotated character, or a
single `drawString` (meihyo.py lines 517-531). -/
def drawOpsOf (fontSize : ℚ) (inst : WInst) : List CanvasOp :=
  match inst.rotation with
  | some a =>
    [ CanvasOp.saveStateOp, CanvasOp.translateOp inst.drawX inst.drawY,
      CanvasOp.rotateOp a,
      CanvasOp.drawStringOp 0 (-(fontSize / 4)) [ inst.ch ],
      CanvasOp.restoreStateOp ]
  | none => [ CanvasOp.drawStringOp inst.drawX inst.drawY [ inst.ch ] ]

/-- Canvas-operation stream of the `draw_vertical_text_with_wrap` loop: per
character a font switch, the bold block, the draw, and the bold reset
(meihyo.py lines 481-543); nothing for the break character. -/
def vwrapOpsGo (y0 fontSize charSpacing lineSpacing : ℚ) (maxChars : ℕ)
    (adjustments : Char → Option Adj) : List Char → VState → List CanvasOp
  | [], _ => []
  | c :: rest, st =>
    match vwrapStep y0 fontSize charSpacing lineSpacing maxChars adjustments st c with
    | (some inst, st2) =>
      CanvasOp.setFontOp (targetFont c) fontSize ::
        (boldPre fontSize ++ drawOpsOf fontSize inst ++ boldPost) ++
        vwrapOpsGo y0 fontSize charSpacing lineSpacing maxChars adjustments rest st2
    | (none, st2) =>
      vwrapOpsGo y0 fontSize charSpacing lineSpacing maxChars adjustments rest st2

/-- Full canvas-operation stream of `draw_vertical_text_with_wrap`, including
the initial `setFont` (meihyo.py line 475). -/
def draw_vertical_text_with_wrap_ops (text : List Char) (x y fontSize charSpacing : ℚ)
    (maxChars : ℕ) (lineSpacing : ℚ) (adjustments : Char → Option Adj) : List CanvasOp :=
  CanvasOp.setFontOp DEFAULT_FONT fontSize ::
    vwrapOpsGo y fontSize charSpacing lineSpacing maxChars adjustments text ⟨x, y, 0⟩

/-- Canvas-operation stream of `draw_horizontal_text_with_wrap`
(meihyo.py lines 583-619): one bold block before the line loop and one reset
after it. -/
def draw_horizontal_text_with_wrap_ops (text : List Char) (x y : ℚ)
    (fontName : String) (fontSize : ℚ) (maxChars : ℕ) (lineHeight : ℚ) : List CanvasOp :=
  CanvasOp.setFontOp fontName fontSize ::
    (boldPre fontSize ++
      (wrapLines maxChars text).enum.map
        (fun p => CanvasOp.drawStringOp x (y - (p.1 : ℚ) * lineHeight) p.2) ++
      boldPost)

/-- Canvas-operation stream of `draw_centered_horizontal_text_with_wrap`
(meihyo.py lines 621-659), same single bold block around all line draws. -/
def draw_centered_horizontal_text_with_wrap_ops (stringWidthFn : List Char → ℚ)
    (text : List Char) (x y : ℚ) (fontName : String) (fontSize : ℚ)
    (maxChars : ℕ) (lineHeight : ℚ) : List CanvasOp :=
  CanvasOp.setFontOp fontName fontSize ::
    (boldPre fontSize ++
      (wrapLines maxChars text).enum.map
        (fun p => CanvasOp.drawStringOp (x - stringWidthFn p.2 / 2)
          (y - (p.1 : ℚ) * lineHeight) p.2) ++
      boldPost)

/-- Scanner for the bold bracketing discipline: outside any bracket a draw is
illegal; a fill-and-stroke switch opens a bracket; the matching revert closes
it and is legal exactly when the bracket contains exactly one draw. -/
def boldScan : List CanvasOp → Bool → ℕ → Bool
  | [], inside, _ => !inside
  | CanvasOp.rawCodeOp s :: rest, false, _ =>
    if s = trFillStroke then boldScan rest true 0
    else if s = trFillOnly then false
    else boldScan rest false 0
  | CanvasOp.drawStringOp _ _ _ :: _, false, _ => false
  | CanvasOp.setFontOp _ _ :: rest, false, _ => boldScan rest false 0
  | CanvasOp.setLineWidthOp _ :: rest, false, _ => boldScan rest false 0
  | CanvasOp.setStrokeColorOp :: rest, false, _ => boldScan rest false 0
  | CanvasOp.saveStateOp :: rest, false, _ => boldScan rest false 0
  | CanvasOp.translateOp _ _ :: rest, false, _ => boldScan rest false 0
  | CanvasOp.rotateOp _ :: rest, false, _ => boldScan rest false 0
  | CanvasOp.restoreStateOp :: rest, false, _ => boldScan rest false 0
  | CanvasOp.rawCodeOp s :: rest, true, n =>
    if s = trFillOnly then decide (n = 1) && boldScan rest false 0
    else if s = trFillStroke then false
    else boldScan rest true n
  | CanvasOp.drawStringOp _ _ _ :: rest, true, n => boldScan rest true (n + 1)
  | CanvasOp.setFontOp _ _ :: rest, true, n => boldScan rest true n
  | CanvasOp.setLineWidthOp _ :: rest, true, n => boldScan rest true n
  | CanvasOp.setStrokeColorOp :: rest, true, n => boldScan rest true n
  | CanvasOp.saveStateOp :: rest, true, n => boldScan rest true n
  | CanvasOp.translateOp _ _ :: rest, true, n => boldScan rest true n
  | CanvasOp.rotateOp _ :: rest, true, n => boldScan rest true n
  | CanvasOp.restoreStateOp :: rest, true, n => boldScan rest true n

/-- An operation stream keeps the per-character bold discipline: every draw is
inside its own fill-and-stroke/revert pair, one draw per pair. -/
def boldBracketsOk (ops : List CanvasOp) : Bool := boldScan ops false 0

/-- Every `setLineWidth` call in the stream uses the given width. -/
def boldWidthsOk (fontSize : ℚ) (ops : List CanvasOp) : Bool :=
  ops.all (fun op =>
    match op with
    | CanvasOp.setLineWidthOp w => decide (w = fontSize * boldWidthRatio)
    | _ => true)

theorem boldPre_eq (fontSize : ℚ) :
    boldPre fontSize =
      [ CanvasOp.setLineWidthOp (fontSize * boldWidthRatio),
        CanvasOp.setStrokeColorOp, CanvasOp.rawCodeOp trFillStroke ] := rfl

theorem boldPost_eq : boldPost = [ CanvasOp.rawCodeOp trFillOnly ] := rfl

theorem boldScan_char_block (fontSize : ℚ) (font : String) (inst : WInst)
    (rest : List CanvasOp) :
    boldScan (CanvasOp.setFontOp font fontSize ::
      (boldPre fontSize ++ drawOpsOf fontSize inst ++ boldPost) ++ rest) false 0 =
    boldScan rest false 0 := by
  cases hrot : inst.rotation with
  | some a =>
    simp only [boldPre_eq, boldPost_eq, drawOpsOf, hrot,
      List.cons_append, List.append_assoc, List.nil_append]
    rw [boldScan]
    rw [boldScan]
    rw [boldScan]
    rw [boldScan, if_pos rfl]
    rw [boldScan]
    rw [boldScan]
    rw [boldScan]
    rw [boldScan]
    rw [boldScan]
    rw [boldScan, if_pos rfl]
    simp
  | none =>
    simp only [boldPre_eq, boldPost_eq, drawOpsOf, hrot,
      List.cons_append, List.append_assoc, List.nil_append]
    rw [boldScan]
    rw [boldScan]
    rw [boldScan]
    rw [boldScan, if_pos rfl]
    rw [boldScan]
    rw [boldScan, if_pos rfl]
    simp

theorem boldScan_vwrapOpsGo (y0 fontSize charSpacing lineSpacing : ℚ)
    (maxChars : ℕ) (adjustments : Char → Option Adj) :
    ∀ (l : List Char) (st : VState),
    boldScan (vwrapOpsGo y0 fontSize charSpacing lineSpacing maxChars adjustments l st)
      false 0 = true := by
  intro l
  induction l with
  | nil => intro st; rw [vwrapOpsGo]; rfl
  | cons c rest ih =>
    intro st
    rcases hstep : vwrapStep y0 fontSize charSpacing lineSpacing maxChars
      adjustments st c with ⟨o, st2⟩
    cases o with
    | some inst =>
      rw [vwrapOpsGo, hstep]
      rw [boldScan_char_block]
      exact ih st2
    | none =>
      rw [vwrapOpsGo, hstep]
      exact ih st2

theorem boldWidthsOk_vwrapOpsGo (y0 fontSize charSpacing lineSpacing : ℚ)
    (maxChars : ℕ) (adjustments : Char → Option Adj) :
    ∀ (l : List Char) (st : VState),
    boldWidthsOk fontSize
      (vwrapOpsGo y0 fontSize charSpacing lineSpacing maxChars adjustments l st) = true := by
  intro l
  induction l with
  | nil => intro st; rw [vwrapOpsGo]; rfl
  | cons c rest ih =>
    intro st
    rcases hstep : vwrapStep y0 fontSize charSpacing lineSpacing maxChars
      adjustments st c with ⟨o, st2⟩
    cases o with
    | some inst =>
      rw [vwrapOpsGo, hstep]
      have hrest := ih st2
      simp only [boldWidthsOk, List.all_eq_true] at hrest
      cases hrot : inst.rotation with
      | some a =>
        simp [boldWidthsOk, boldPre, boldPost, USE_BOLD, drawOpsOf, hrot,
          List.all_cons, List.all_append, List.all_eq_true]
        exact hrest
      | none =>
        simp [boldWidthsOk, boldPre, boldPost, USE_BOLD, drawOpsOf, hrot,
          List.all_cons, List.all_append, List.all_eq_true]
        exact hrest
    | none =>
      rw [vwrapOpsGo, hstep]
      exact ih st2

/-- C6 (amended): In the per-character vertical wrap renderer every character
draw is enclosed in its own fill-and-stroke/revert pair — one draw per pair,
no draw outside a pair (the rotation save/translate/rotate/restore operations
may sit between the mode switches and the draw) — and every stroke width set
is `fontSize · BOLD_WIDTH_RATIO`.  In the two horizontal wrapped renderers,
however, a single fill-and-stroke/revert pair encloses the whole sequence of
line draws of the call, not each draw individually. -/
theorem claim_C6_bold_bracketing :
    (∀ (text : List Char) (x y fontSize charSpacing : ℚ) (maxChars : ℕ)
      (lineSpacing : ℚ) (adjustments : Char → Option Adj),
      boldBracketsOk (draw_vertical_text_with_wrap_ops text x y fontSize
        charSpacing maxChars lineSpacing adjustments) = true ∧
      boldWidthsOk fontSize (draw_vertical_text_with_wrap_ops text x y fontSize
        charSpacing maxChars lineSpacing adjustments) = true) ∧
    (∀ (text : List Char) (x y : ℚ) (fontName : String) (fontSize : ℚ)
      (maxChars : ℕ) (lineHeight : ℚ),
      draw_horizontal_text_with_wrap_ops text x y fontName fontSize maxChars
          lineHeight =
        [ CanvasOp.setFontOp fontName fontSize,
          CanvasOp.setLineWidthOp (fontSize * boldWidthRatio),
          CanvasOp.setStrokeColorOp, CanvasOp.rawCodeOp trFillStroke ] ++
        (wrapLines maxChars text).enum.map
          (fun p => CanvasOp.drawStringOp x (y - (p.1 : ℚ) * lineHeight) p.2) ++
        [ CanvasOp.rawCodeOp trFillOnly ]) ∧
    (∀ (stringWidthFn : List Char → ℚ) (text : List Char) (x y : ℚ)
      (fontName : String) (fontSize : ℚ) (maxChars : ℕ) (lineHeight : ℚ),
      draw_centered_horizontal_text_with_wrap_ops stringWidthFn text x y
          fontName fontSize maxChars lineHeight =
        [ CanvasOp.setFontOp fontName fontSize,
          CanvasOp.setLineWidthOp (fontSize * boldWidthRatio),
          CanvasOp.setStrokeColorOp, CanvasOp.rawCodeOp trFillStroke ] ++
        (wrapLines maxChars text).enum.map
          (fun p => CanvasOp.drawStringOp (x - stringWidthFn p.2 / 2)
            (y - (p.1 : ℚ) * lineHeight) p.2) ++
        [ CanvasOp.rawCodeOp trFillOnly ]) := by
  refine ⟨fun text x y fontSize charSpacing maxChars lineSpacing adjustments =>
    ⟨?_, ?_⟩, fun _ _ _ _ _ _ _ => rfl, fun _ _ _ _ _ _ _ _ => rfl⟩
  · unfold boldBracketsOk draw_vertical_text_with_wrap_ops
    rw [boldScan]
    exact boldScan_vwrapOpsGo y fontSize charSpacing lineSpacing maxChars
      adjustments text ⟨x, y, 0⟩
  · unfold draw_vertical_text_with_wrap_ops
    have h := boldWidthsOk_vwrapOpsGo y fontSize charSpacing lineSpacing maxChars
      adjustments text ⟨x, y, 0⟩
    simp only [boldWidthsOk, List.all_cons] at h ⊢
    rw [h]
    rfl

/-- Counterexample to C6 as stated: in `draw_horizontal_text_with_wrap` the
fill-and-stroke/revert pair brackets the whole call — with two wrapped lines,
two draw calls share one pair, so not every character/line draw is wrapped in
its own switch/revert. -/
theorem claim_C6_counterexample :
    boldBracketsOk (draw_horizontal_text_with_wrap_ops [ 'a', 'b' ] 25 170
      "MSMincho" 10 1 12) = false := by
  decide


/-- Stage 1 of `to_full_width` (meihyo.py lines 685-689, identical in
kaisetu.py): the `str.translate` table shifting printable ASCII `0x21`-`0x7E`
by `0xFEE0` and mapping the ASCII space `0x20` to the ideographic space
`U+3000`, applied to one character. -/
def asciiShift (c : Char) : Char :=
  if 0x21 ≤ c.toNat ∧ c.toNat ≤ 0x7E then Char.ofNat (c.toNat + 0xFEE0)
  else if c.toNat = 0x20 then Char.ofNat 0x3000
  else c

/-- Membership in the regex class of half-width katakana,
`[\uff61-\uff9f]` (meihyo.py line 696). -/
def isHWKatakana (c : Char) : Bool := decide (0xFF61 ≤ c.toNat ∧ c.toNat ≤ 0xFF9F)

/-- Modelled from the spec: the per-character NFKC compatibility decomposition
of the half-width katakana block U+FF61-U+FF9F (the repository calls the
external `unicodedata.normalize`, which is not part of its source).  The two
sound marks decompose to the combining marks U+3099 / U+309A. -/
def hwTable : List (Char × Char) :=
  [ ('｡', '。'), ('｢', '「'), ('｣', '」'),
    ('､', '、'), ('･', '・'), ('ｦ', 'ヲ'),
    ('ｧ', 'ァ'), ('ｨ', 'ィ'), ('ｩ', 'ゥ'),
    ('ｪ', 'ェ'), ('ｫ', 'ォ'), ('ｬ', 'ャ'),
    ('ｭ', 'ュ'), ('ｮ', 'ョ'), ('ｯ', 'ッ'),
    ('ｰ', 'ー'), ('ｱ', 'ア'), ('ｲ', 'イ'),
    ('ｳ', 'ウ'), ('ｴ', 'エ'), ('ｵ', 'オ'),
    ('ｶ', 'カ'), ('ｷ', 'キ'), ('ｸ', 'ク'),
    ('ｹ', 'ケ'), ('ｺ', 'コ'), ('ｻ', 'サ'),
    ('ｼ', 'シ'), ('ｽ', 'ス'), ('ｾ', 'セ'),
    ('ｿ', 'ソ'), ('ﾀ', 'タ'), ('ﾁ', 'チ'),
    ('ﾂ', 'ツ'), ('ﾃ', 'テ'), ('ﾄ', 'ト'),
    ('ﾅ', 'ナ'), ('ﾆ', 'ニ'), ('ﾇ', 'ヌ'),
    ('ﾈ', 'ネ'), ('ﾉ', 'ノ'), ('ﾊ', 'ハ'),
    ('ﾋ', 'ヒ'), ('ﾌ', 'フ'), ('ﾍ', 'ヘ'),
    ('ﾎ', 'ホ'), ('ﾏ', 'マ'), ('ﾐ', 'ミ'),
    ('ﾑ', 'ム'), ('ﾒ', 'メ'), ('ﾓ', 'モ'),
    ('ﾔ', 'ヤ'), ('ﾕ', 'ユ'), ('ﾖ', 'ヨ'),
    ('ﾗ', 'ラ'), ('ﾘ', 'リ'), ('ﾙ', 'ル'),
    ('ﾚ', 'レ'), ('ﾛ', 'ロ'), ('ﾜ', 'ワ'),
    ('ﾝ', 'ン'), ('ﾞ', Char.ofNat 0x3099), ('ﾟ', Char.ofNat 0x309A) ]

/-- Modelled from the spec: canonical composition pairs base + U+3099 used by
NFKC on katakana. -/
def voicedTable : List (Char × Char) :=
  [ ('カ', 'ガ'), ('キ', 'ギ'), ('ク', 'グ'), ('ケ', 'ゲ'), ('コ', 'ゴ'), ('サ', 'ザ'),
    ('シ', 'ジ'), ('ス', 'ズ'), ('セ', 'ゼ'), ('ソ', 'ゾ'), ('タ', 'ダ'), ('チ', 'ヂ'),
    ('ツ', 'ヅ'), ('テ', 'デ'), ('ト', 'ド'), ('ハ', 'バ'), ('ヒ', 'ビ'), ('フ', 'ブ'),
    ('ヘ', 'ベ'), ('ホ', 'ボ'), ('ウ', 'ヴ'), ('ワ', 'ヷ'), ('ヲ', 'ヺ') ]

/-- Modelled from the spec: canonical composition pairs base + U+309A used by
NFKC on katakana. -/
def semiVoicedTable : List (Char × Char) :=
  [ ('ハ', 'パ'), ('ヒ', 'ピ'), ('フ', 'プ'), ('ヘ', 'ペ'), ('ホ', 'ポ') ]

/-- Per-character half-width-to-full-width decomposition lookup. -/
def hwBase (c : Char) : Char :=
  ((hwTable.find? (fun p => p.1 == c)).map Prod.snd).getD c

/-- Canonical composition of a base character with a following combining
katakana sound mark, when a precomposed character exists. -/
def composeKana (a b : Char) : Option Char :=
  if b = Char.ofNat 0x3099 then (voicedTable.find? (fun p => p.1 == a)).map Prod.snd
  else if b = Char.ofNat 0x309A then (semiVoicedTable.find? (fun p => p.1 == a)).map Prod.snd
  else none

/-- Canonical composition pass over a decomposed run.  The fuel argument only
bounds the iteration count; `l.length` is always enough since each step
shortens the list. -/
def kanaComposeGo : ℕ → List Char → List Char
  | 0, l => l
  | _, [] => []
  | _ + 1, [a] => [a]
  | fuel + 1, a :: b :: rest =>
    match composeKana a b with
    | some ab => kanaComposeGo fuel (ab :: rest)
    | none => a :: kanaComposeGo fuel (b :: rest)

/-- Canonical composition pass over a decomposed run. -/
def kanaCompose (l : List Char) : List Char := kanaComposeGo l.length l

theorem kanaComposeGo_nil : ∀ fuel : ℕ, kanaComposeGo fuel [] = [] := by
  intro fuel
  cases fuel <;> rfl

/-- Modelled from the spec: `unicodedata.normalize('NFKC', run)` restricted to
runs of half-width katakana — compatibility decomposition of each character
followed by canonical composition of the sound marks. -/
def hwKatakanaNFKC (run : List Char) : List Char := kanaCompose (run.map hwBase)

theorem length_dropWhile_le (p : Char → Bool) :
    ∀ l : List Char, (l.dropWhile p).length ≤ l.length := by
  intro l
  induction l with
  | nil => simp [List.dropWhile]
  | cons a t ih =>
    rw [List.dropWhile_cons]
    split_ifs with h
    · simp only [List.length_cons]
      omega
    · simp

/-- Stage 2 of `to_full_width` (meihyo.py line 696): the regex substitution
replacing every maximal run of half-width katakana by its NFKC normalization,
with the normalizer as an explicit parameter. -/
def subKatakanaRunsGo (nfkc : List Char → List Char) : ℕ → List Char → List Char
  | 0, _ => []
  | _, [] => []
  | fuel + 1, c :: rest =>
    if isHWKatakana c then
      nfkc (c :: rest.takeWhile (fun x => isHWKatakana x)) ++
        subKatakanaRunsGo nfkc fuel (rest.dropWhile (fun x => isHWKatakana x))
    else c :: subKatakanaRunsGo nfkc fuel rest

def subKatakanaRuns (nfkc : List Char → List Char) (l : List Char) : List Char :=
  subKatakanaRunsGo nfkc l.length l

theorem subKatakanaRunsGo_nil (nfkc : List Char → List Char) :
    ∀ fuel : ℕ, subKatakanaRunsGo nfkc fuel [] = [] := by
  intro fuel
  cases fuel <;> rfl

/-- `to_full_width` with the external normalizer abstracted. -/
def to_full_width_with (nfkc : List Char → List Char) (l : List Char) : List Char :=
  subKatakanaRuns nfkc (l.map asciiShift)

/-- `to_full_width` (meihyo.py lines 680-698, identical in kaisetu.py lines
796-819): ASCII block shift, space to ideographic space, half-width katakana
runs through NFKC. -/
def to_full_width (l : List Char) : List Char := to_full_width_with hwKatakanaNFKC l

/-- `to_full_width` on a `String` (as applied to the `臨書解説` column). -/
def to_full_width_str (s : String) : String := String.mk (to_full_width s.data)

/-- A character in one of the two input ranges `to_full_width` converts:
half-width ASCII `0x20`-`0x7E` or half-width katakana `U+FF61`-`U+FF9F`. -/
def fwDomain (c : Char) : Bool :=
  decide ((0x20 ≤ c.toNat ∧ c.toNat ≤ 0x7E) ∨ (0xFF61 ≤ c.toNat ∧ c.toNat ≤ 0xFF9F))

theorem toNat_ofNat_valid {n : ℕ} (h : n.isValidChar) : (Char.ofNat n).toNat = n := by
  rw [Char.ofNat, dif_pos h]
  rfl

theorem isValidChar_of_bmp {n : ℕ} (h1 : 0xE000 ≤ n) (h2 : n < 0x110000) :
    n.isValidChar :=
  Or.inr ⟨by omega, h2⟩

theorem asciiShift_of_printable {c : Char} (h1 : 0x21 ≤ c.toNat) (h2 : c.toNat ≤ 0x7E) :
    asciiShift c = Char.ofNat (c.toNat + 0xFEE0) := by
  unfold asciiShift
  rw [if_pos ⟨h1, h2⟩]

theorem asciiShift_of_not_ascii {c : Char} (h : ¬ (0x20 ≤ c.toNat ∧ c.toNat ≤ 0x7E)) :
    asciiShift c = c := by
  unfold asciiShift
  rw [if_neg (fun hc => h ⟨by omega, hc.2⟩), if_neg (fun hc => h ⟨by omega, by omega⟩)]

theorem not_hwk_of_domainFree {c : Char} (h : fwDomain c = false) :
    isHWKatakana c = false := by
  simp only [fwDomain, decide_eq_false_iff_not] at h
  simp only [isHWKatakana, decide_eq_false_iff_not]
  intro hc
  exact h (Or.inr hc)

/-- Every character produced by the ASCII-stage map is either outside both
input ranges or is half-width katakana passed through unchanged. -/
theorem asciiShift_range (c : Char) :
    fwDomain (asciiShift c) = false ∨ isHWKatakana (asciiShift c) = true := by
  by_cases h1 : 0x21 ≤ c.toNat ∧ c.toNat ≤ 0x7E
  · left
    unfold asciiShift
    rw [if_pos h1]
    have hv : (c.toNat + 0xFEE0).isValidChar := isValidChar_of_bmp (by omega) (by omega)
    simp only [fwDomain, decide_eq_false_iff_not, toNat_ofNat_valid hv]
    omega
  · by_cases h2 : c.toNat = 0x20
    · left
      unfold asciiShift
      rw [if_neg h1, if_pos h2]
      have hv : (0x3000 : ℕ).isValidChar := Or.inl (by omega)
      simp only [fwDomain, decide_eq_false_iff_not, toNat_ofNat_valid hv]
      omega
    · rw [asciiShift_of_not_ascii (fun hc => by omega)]
      by_cases h3 : isHWKatakana c = true
      · right
        exact h3
      · left
        simp only [isHWKatakana, decide_eq_true_eq] at h3
        simp only [fwDomain, decide_eq_false_iff_not]
        omega

/-- The decomposition table sends every half-width katakana outside both
input ranges. -/
theorem hwBase_domainFree {c : Char} (h : isHWKatakana c = true) :
    fwDomain (hwBase c) = false := by
  have hd : ∀ i ∈ List.range 63, fwDomain (hwBase (Char.ofNat (0xFF61 + i))) = false := by
    decide
  simp only [isHWKatakana, decide_eq_true_eq] at h
  have hc : c = Char.ofNat (0xFF61 + (c.toNat - 0xFF61)) := by
    have heq : 0xFF61 + (c.toNat - 0xFF61) = c.toNat := by omega
    rw [heq, Char.ofNat_toNat]
  rw [hc]
  exact hd (c.toNat - 0xFF61) (List.mem_range.mpr (by omega))

theorem composeKana_domainFree {a b d : Char} (h : composeKana a b = some d) :
    fwDomain d = false := by
  have hv : ∀ p ∈ voicedTable, fwDomain p.2 = false := by decide
  have hs : ∀ p ∈ semiVoicedTable, fwDomain p.2 = false := by decide
  unfold composeKana at h
  split_ifs at h
  · cases hf : voicedTable.find? (fun p => p.1 == a) with
    | none => rw [hf] at h; exact Option.noConfusion h
    | some p =>
      rw [hf] at h
      simp only [Option.map_some', Option.some.injEq] at h
      subst h
      exact hv p (List.mem_of_find?_eq_some hf)
  · cases hf : semiVoicedTable.find? (fun p => p.1 == a) with
    | none => rw [hf] at h; exact Option.noConfusion h
    | some p =>
      rw [hf] at h
      simp only [Option.map_some', Option.some.injEq] at h
      subst h
      exact hs p (List.mem_of_find?_eq_some hf)

theorem kanaComposeGo_domainFree :
    ∀ (fuel : ℕ) (l : List Char), (∀ c ∈ l, fwDomain c = false) →
    ∀ d ∈ kanaComposeGo fuel l, fwDomain d = false := by
  intro fuel
  induction fuel with
  | zero =>
    intro l h d hd
    rw [kanaComposeGo] at hd
    exact h d hd
  | succ n ih =>
    intro l h d hd
    match l with
    | [] =>
      rw [kanaComposeGo_nil] at hd
      exact absurd hd (List.not_mem_nil d)
    | [a] =>
      rw [kanaComposeGo] at hd
      rw [List.mem_singleton] at hd
      subst hd
      exact h d (List.mem_singleton.mpr rfl)
    | a :: b :: rest =>
      rw [kanaComposeGo] at hd
      cases hcomp : composeKana a b with
      | some ab =>
        rw [hcomp] at hd
        refine ih (ab :: rest) (fun c hc => ?_) d hd
        rcases List.mem_cons.mp hc with hc | hc
        · subst hc
          exact composeKana_domainFree hcomp
        · exact h c (List.mem_cons_of_mem a (List.mem_cons_of_mem b hc))
      | none =>
        rw [hcomp] at hd
        rcases List.mem_cons.mp hd with hd | hd
        · subst hd
          exact h d (List.mem_cons_self d _)
        · exact ih (b :: rest) (fun c hc => h c (List.mem_cons_of_mem a hc)) d hd

theorem kanaCompose_domainFree : ∀ (l : List Char), (∀ c ∈ l, fwDomain c = false) →
    ∀ d ∈ kanaCompose l, fwDomain d = false :=
  fun l h d hd => kanaComposeGo_domainFree l.length l h d hd

theorem hwKatakanaNFKC_domainFree {run : List Char}
    (h : ∀ c ∈ run, isHWKatakana c = true) :
    ∀ d ∈ hwKatakanaNFKC run, fwDomain d = false := by
  intro d hd
  unfold hwKatakanaNFKC at hd
  refine kanaCompose_domainFree (run.map hwBase) (fun c hc => ?_) d hd
  obtain ⟨x, hx, rfl⟩ := List.mem_map.mp hc
  exact hwBase_domainFree (h x hx)

theorem takeWhile_all {p : Char → Bool} :
    ∀ l : List Char, (∀ x ∈ l, p x = true) → l.takeWhile p = l := by
  intro l
  induction l with
  | nil => intro _; rfl
  | cons a t ih =>
    intro h
    rw [List.takeWhile_cons, if_pos (h a (List.mem_cons_self a t))]
    rw [ih (fun x hx => h x (List.mem_cons_of_mem a hx))]

theorem dropWhile_all {p : Char → Bool} :
    ∀ l : List Char, (∀ x ∈ l, p x = true) → l.dropWhile p = [] := by
  intro l
  induction l with
  | nil => intro _; rfl
  | cons a t ih =>
    intro h
    rw [List.dropWhile_cons, if_pos (h a (List.mem_cons_self a t))]
    exact ih (fun x hx => h x (List.mem_cons_of_mem a hx))

theorem subKatakanaRunsGo_domainFree : ∀ (fuel : ℕ) (l : List Char),
    (∀ c ∈ l, fwDomain c = false ∨ isHWKatakana c = true) →
    ∀ d ∈ subKatakanaRunsGo hwKatakanaNFKC fuel l, fwDomain d = false := by
  intro fuel
  induction fuel with
  | zero =>
    intro l _ d hd
    rw [subKatakanaRunsGo] at hd
    exact absurd hd (List.not_mem_nil d)
  | succ n ih =>
    intro l h d hd
    match l with
    | [] =>
      rw [subKatakanaRunsGo_nil] at hd
      exact absurd hd (List.not_mem_nil d)
    | c :: rest =>
      rw [subKatakanaRunsGo] at hd
      by_cases hc : isHWKatakana c = true
      · rw [if_pos hc] at hd
        rcases List.mem_append.mp hd with hd | hd
        · refine hwKatakanaNFKC_domainFree (fun x hx => ?_) d hd
          rcases List.mem_cons.mp hx with hx | hx
          · subst hx
            exact hc
          · exact List.mem_takeWhile_imp hx
        · refine ih _ (fun x hx => ?_) d hd
          exact h x (List.mem_cons_of_mem c ((List.dropWhile_sublist _).subset hx))
      · rw [if_neg hc] at hd
        rcases List.mem_cons.mp hd with hd | hd
        · subst hd
          rcases h d (List.mem_cons_self d rest) with hq | hq
          · exact hq
          · exact absurd hq hc
        · exact ih rest (fun x hx => h x (List.mem_cons_of_mem c hx)) d hd

theorem subKatakanaRuns_domainFree : ∀ (l : List Char),
    (∀ c ∈ l, fwDomain c = false ∨ isHWKatakana c = true) →
    ∀ d ∈ subKatakanaRuns hwKatakanaNFKC l, fwDomain d = false :=
  fun l h d hd => subKatakanaRunsGo_domainFree l.length l h d hd

theorem subKatakanaRunsGo_id (nfkc : List Char → List Char) :
    ∀ (fuel : ℕ) (l : List Char), l.length ≤ fuel →
    (∀ c ∈ l, isHWKatakana c = false) →
    subKatakanaRunsGo nfkc fuel l = l := by
  intro fuel
  induction fuel with
  | zero =>
    intro l hl _
    have : l = [] := List.eq_nil_of_length_eq_zero (by omega)
    subst this
    rw [subKatakanaRunsGo]
  | succ n ih =>
    intro l hl h
    match l with
    | [] => rw [subKatakanaRunsGo_nil]
    | c :: rest =>
      rw [subKatakanaRunsGo, if_neg (by simp [h c (List.mem_cons_self c rest)])]
      rw [ih rest (by simp at hl; omega) (fun x hx => h x (List.mem_cons_of_mem c hx))]

theorem subKatakanaRuns_id (nfkc : List Char → List Char) :
    ∀ l : List Char, (∀ c ∈ l, isHWKatakana c = false) →
    subKatakanaRuns nfkc l = l :=
  fun l h => subKatakanaRunsGo_id nfkc l.length l le_rfl h

/-- Strings outside both input ranges are fixed by `to_full_width`. -/
theorem to_full_width_fix : ∀ l : List Char, (∀ c ∈ l, fwDomain c = false) →
    to_full_width l = l := by
  intro l h
  unfold to_full_width to_full_width_with
  have hmap : l.map asciiShift = l := by
    have hcong : l.map asciiShift = l.map id := List.map_congr_left (fun a ha => by
      refine asciiShift_of_not_ascii (fun hc => ?_)
      have := h a ha
      simp only [fwDomain, decide_eq_false_iff_not] at this
      exact this (Or.inl hc))
    rw [hcong, List.map_id]
  rw [hmap]
  exact subKatakanaRuns_id hwKatakanaNFKC l
    (fun c hc => not_hwk_of_domainFree (h c hc))

/-- Every character produced by `to_full_width` lies outside both of its
input ranges. -/
theorem to_full_width_domainFree : ∀ (l : List Char), ∀ d ∈ to_full_width l,
    fwDomain d = false := by
  intro l d hd
  unfold to_full_width to_full_width_with at hd
  refine subKatakanaRuns_domainFree (l.map asciiShift) (fun c hc => ?_) d hd
  obtain ⟨x, hx, rfl⟩ := List.mem_map.mp hc
  exact asciiShift_range x

/-- C10: `to_full_width` is idempotent — every codepoint it can produce lies
outside both of its input ranges (half-width ASCII and half-width katakana),
so a second application changes nothing. -/
theorem claim_C10_to_full_width_idempotent :
    ∀ l : List Char, to_full_width (to_full_width l) = to_full_width l :=
  fun l => to_full_width_fix (to_full_width l) (to_full_width_domainFree l)

/-- C9: `to_full_width` shifts printable ASCII by `0xFEE0`, maps the space to
the ideographic space `U+3000`, normalizes maximal half-width-katakana runs
via (the modelled) NFKC, and fixes everything else — with the spec's two
concrete examples. -/
theorem claim_C9_to_full_width :
    to_full_width [ 'A', 'B', 'C', ' ', '1', '2', '3' ] =
      [ 'Ａ', 'Ｂ', 'Ｃ', '　', '１', '２', '３' ] ∧
    to_full_width [ 'ｱ', 'ｲ', 'ｳ' ] = [ 'ア', 'イ', 'ウ' ] ∧
    (∀ c : Char, 0x21 ≤ c.toNat → c.toNat ≤ 0x7E →
      to_full_width [ c ] = [ Char.ofNat (c.toNat + 0xFEE0) ]) ∧
    to_full_width [ ' ' ] = [ Char.ofNat 0x3000 ] ∧
    (∀ l : List Char, (∀ c ∈ l, fwDomain c = false) → to_full_width l = l) ∧
    (∀ l : List Char, l ≠ [] → (∀ c ∈ l, isHWKatakana c = true) →
      to_full_width l = hwKatakanaNFKC l) := by
  refine ⟨by decide, by decide, ?_, by decide, to_full_width_fix, ?_⟩
  · intro c h1 h2
    unfold to_full_width to_full_width_with
    simp only [List.map_cons, List.map_nil]
    rw [asciiShift_of_printable h1 h2]
    have hv : (c.toNat + 0xFEE0).isValidChar := isValidChar_of_bmp (by omega) (by omega)
    have hk : isHWKatakana (Char.ofNat (c.toNat + 0xFEE0)) = false := by
      simp only [isHWKatakana, toNat_ofNat_valid hv, decide_eq_false_iff_not]
      omega
    unfold subKatakanaRuns
    simp only [List.length_cons, List.length_nil]
    rw [subKatakanaRunsGo, if_neg (by simp [hk]), subKatakanaRunsGo_nil]
  · intro l hne hall
    unfold to_full_width to_full_width_with
    have hmap : l.map asciiShift = l := by
      have hcong : l.map asciiShift = l.map id := List.map_congr_left (fun a ha => by
        refine asciiShift_of_not_ascii (fun hc => ?_)
        have := hall a ha
        simp only [isHWKatakana, decide_eq_true_eq] at this
        omega)
      rw [hcong, List.map_id]
    rw [hmap]
    obtain ⟨c, rest, rfl⟩ := List.exists_cons_of_ne_nil hne
    unfold subKatakanaRuns
    simp only [List.length_cons]
    rw [subKatakanaRunsGo, if_pos (hall c (List.mem_cons_self c rest))]
    rw [takeWhile_all rest (fun x hx => hall x (List.mem_cons_of_mem c hx))]
    rw [dropWhile_all rest (fun x hx => hall x (List.mem_cons_of_mem c hx))]
    rw [subKatakanaRunsGo_nil, List.append_nil]

/-- Witness for C9 at concrete characters exercising each conditional part. -/
theorem claim_C9_witness :
    to_full_width [ 'A' ] = [ Char.ofNat ('A'.toNat + 0xFEE0) ] ∧
    to_full_width [ 'あ' ] = [ 'あ' ] ∧
    to_full_width [ 'ｶ' ] = hwKatakanaNFKC [ 'ｶ' ] :=
  ⟨claim_C9_to_full_width.2.2.1 'A' (by decide) (by decide),
   claim_C9_to_full_width.2.2.2.2.1 [ 'あ' ] (by decide),
   claim_C9_to_full_width.2.2.2.2.2 [ 'ｶ' ] (by decide) (by decide)⟩

/-- One row of the input table: a mapping from column name to string value.
Preprocessing reads done with `row.get(col, "") or ""` (after `fillna('')`)
treat a missing column as the empty string; the bracket reads inside
`format_df` instead raise `KeyError` on a missing column. -/
def Record : Type := List (String × String)

/-- The empty string value used for missing columns. -/
def emptyStr : String := ""

/-- Read a column, empty string when absent. -/
def getCol (r : Record) (k : String) : String :=
  ((List.find? (fun p => p.1 == k) r).map Prod.snd).getD emptyStr

/-- Column presence (`col in data.columns`). -/
def hasCol (r : Record) (k : String) : Bool :=
  (List.find? (fun p => p.1 == k) r).isSome

/-- Remove a column (`data.drop(columns=[k])`). -/
def dropCol (r : Record) (k : String) : Record :=
  List.filter (fun p => !(p.1 == k)) r

/-- Write a column, creating or replacing it (`data[k] = v` / `data.at`).
Column order is irrelevant to `getCol`, so the new cell is simply placed in
front of the remaining cells. -/
def setCol (r : Record) (k v : String) : Record :=
  (k, v) :: dropCol r k

theorem find?_dropCol_ne (k k2 : String) (hne : k2 ≠ k) :
    ∀ r : List (String × String),
    List.find? (fun p => p.1 == k2) (List.filter (fun p => !(p.1 == k)) r) =
      List.find? (fun p => p.1 == k2) r := by
  intro r
  induction r with
  | nil => rfl
  | cons a t ih =>
    by_cases hk : a.1 = k
    · rw [List.filter_cons, if_neg (by simp [hk])]
      rw [ih, List.find?_cons_of_neg _ (by simp only [beq_iff_eq, hk]; exact fun h => hne h.symm)]
    · rw [List.filter_cons, if_pos (by simp [hk])]
      by_cases h2 : a.1 = k2
      · rw [List.find?_cons_of_pos _ (by simp [h2]), List.find?_cons_of_pos _ (by simp [h2])]
      · rw [List.find?_cons_of_neg _ (by simp [h2]), List.find?_cons_of_neg _ (by simp [h2]), ih]

theorem find?_dropCol_self (k : String) :
    ∀ r : List (String × String),
    List.find? (fun p => p.1 == k) (List.filter (fun p => !(p.1 == k)) r) = none := by
  intro r
  induction r with
  | nil => rfl
  | cons a t ih =>
    by_cases hk : a.1 = k
    · rw [List.filter_cons, if_neg (by simp [hk])]
      exact ih
    · rw [List.filter_cons, if_pos (by simp [hk])]
      rw [List.find?_cons_of_neg _ (by simp [hk])]
      exact ih

/-- Reading after a write: the written value at its key, unchanged elsewhere. -/
theorem getCol_setCol (r : Record) (k v k2 : String) :
    getCol (setCol r k v) k2 = if k2 = k then v else getCol r k2 := by
  by_cases h : k2 = k
  · subst h
    rw [if_pos rfl]
    unfold getCol setCol
    rw [List.find?_cons_of_pos _ (by simp)]
    rfl
  · rw [if_neg h]
    unfold getCol setCol dropCol
    rw [List.find?_cons_of_neg _ (by simp; exact fun hc => h hc.symm)]
    rw [find?_dropCol_ne k k2 h r]

/-- Reading after a drop: empty at the dropped key, unchanged elsewhere. -/
theorem getCol_dropCol (r : Record) (k k2 : String) :
    getCol (dropCol r k) k2 = if k2 = k then emptyStr else getCol r k2 := by
  by_cases h : k2 = k
  · subst h
    rw [if_pos rfl]
    unfold getCol dropCol
    rw [find?_dropCol_self k2 r]
    rfl
  · rw [if_neg h]
    unfold getCol dropCol
    rw [find?_dropCol_ne k k2 h r]

theorem hasCol_setCol (r : Record) (k v k2 : String) :
    hasCol (setCol r k v) k2 = (k2 = k ∨ hasCol r k2 = true : Prop) := by
  by_cases h : k2 = k
  · subst h
    unfold hasCol setCol
    rw [List.find?_cons_of_pos _ (by simp)]
    simp
  · unfold hasCol setCol dropCol
    rw [List.find?_cons_of_neg _ (by simp; exact fun hc => h hc.symm)]
    rw [find?_dropCol_ne k k2 h r]
    simp [h, hasCol]

theorem hasCol_dropCol (r : Record) (k k2 : String) :
    hasCol (dropCol r k) k2 = (k2 ≠ k ∧ hasCol r k2 = true : Prop) := by
  by_cases h : k2 = k
  · subst h
    unfold hasCol dropCol
    rw [find?_dropCol_self k2 r]
    simp
  · unfold hasCol dropCol
    rw [find?_dropCol_ne k k2 h r]
    simp [h, hasCol]

theorem getCol_of_not_hasCol {r : Record} {k : String} (h : hasCol r k = false) :
    getCol r k = emptyStr := by
  unfold hasCol at h
  unfold getCol
  cases hf : List.find? (fun p => p.1 == k) r with
  | none => rfl
  | some p => rw [hf] at h; exact absurd h (by simp)

/-- Column label 作品形式 (work-type discriminator). -/
def colSakuhinKeishiki : String := "作品形式"

/-- Column label 作品名 (work name). -/
def colSakuhinMei : String := "作品名"

/-- Column label 作者名 (author name). -/
def colSakushaMei : String := "作者名"

/-- Column label 釈文 (transcription). -/
def colShakumon : String := "釈文"

/-- Column label 釈文（臨書） (transcription, reproduction variant). -/
def colShakumonRin : String := "釈文（臨書）"

/-- Column label 釈文（創作） (transcription, original-composition variant). -/
def colShakumonSou : String := "釈文（創作）"

/-- Column label 作品名（臨書）. -/
def colSakuhinMeiRin : String := "作品名（臨書）"

/-- Column label 作品名（創作）. -/
def colSakuhinMeiSou : String := "作品名（創作）"

/-- Column label コメント（臨書）. -/
def colCommentRin : String := "コメント（臨書）"

/-- Column label コメント（創作）. -/
def colCommentSou : String := "コメント（創作）"

/-- Column label コメント (comment). -/
def colComment : String := "コメント"

/-- Column label 臨書解説 (reproduction explanation, full-width converted). -/
def colRinshoKaisetsu : String := "臨書解説"

/-- Column label 作品情報 (combined work info). -/
def colSakuhinJouhou : String := "作品情報"

/-- Column label 作品情報（法帖解説） (work info for the explanation field). -/
def colSakuhinJouhouExp : String := "作品情報（法帖解説）"

/-- Column label タイムスタンプ (timestamp). -/
def colTimestamp : String := "タイムスタンプ"

/-- Column label 学部 (department). -/
def colGakubu : String := "学部"

/-- Column label 学年 (year). -/
def colGakunen : String := "学年"

/-- Column label 学部学年 (combined department and year). -/
def colGakubuGakunen : String := "学部学年"

/-- Column label ふりがな (furigana). -/
def colFurigana : String := "ふりがな"

/-- Column label 再提出 (resubmission status). -/
def colResubmit : String := "再提出"

/-- Column label 氏名 (student name). -/
def colShimei : String := "氏名"

/-- Column label 創作の種類 (kind of original composition). -/
def colSousakuShurui : String := "創作の種類"

/-- The author-name value meaning "none", 無し. -/
def nashiStr : String := "無し"

/-- The work-type value for a reproduction, 臨. -/
def rinStr : String := "臨"

/-- Opening corner bracket 「. -/
def kagiOpen : String := "「"

/-- Closing corner bracket 」. -/
def kagiClose : String := "」"

/-- Full-width opening parenthesis （. -/
def zenParenOpen : String := "（"

/-- Full-width closing parenthesis ）. -/
def zenParenClose : String := "）"

/-- Full-width space 　. -/
def zenSpace : String := "　"

/-- Half-width space. -/
def halfSpace : String := " "

/-- Resubmission input value ２回以上. -/
def nikaiIjouStr : String := "２回以上"

/-- Resubmission display label やばいよ. -/
def yabaiyoStr : String := "やばいよ"

/-- `combine_work_name_for_exp` (meihyo.py lines 723-733): work info for the
explanation field — 「work」 when the author is 無し, author「work」 for a
reproduction, empty otherwise. -/
def combine_work_name_for_exp (r : Record) : String :=
  if getCol r colSakushaMei = nashiStr then
    kagiOpen ++ getCol r colSakuhinMei ++ kagiClose
  else if getCol r colSakuhinKeishiki = rinStr then
    getCol r colSakushaMei ++ kagiOpen ++ getCol r colSakuhinMei ++ kagiClose
  else emptyStr

/-- `combine_work_name` (meihyo.py lines 747-757): the 作品情報 display
string. -/
def combine_work_name (r : Record) : String :=
  if getCol r colSakushaMei = emptyStr then
    getCol r colSousakuShurui ++ zenSpace ++ kagiOpen ++ getCol r colSakuhinMei ++ kagiClose
  else if getCol r colSakushaMei = nashiStr then
    getCol r colSakuhinKeishiki ++ zenSpace ++ kagiOpen ++ getCol r colSakuhinMei ++ kagiClose
  else
    getCol r colSakuhinKeishiki ++ zenSpace ++ getCol r colSakushaMei ++ zenSpace ++
      kagiOpen ++ getCol r colSakuhinMei ++ kagiClose

/-- `resubmission` (meihyo.py lines 769-776): resubmission label mapping. -/
def resubmission_label (resub : String) : String :=
  if resub = colResubmit then colResubmit
  else if resub = nikaiIjouStr then yabaiyoStr
  else emptyStr

/-- Full-width conversion of the 臨書解説 column when present
(meihyo.py lines 702-703). -/
def step_fullwidth (r : Record) : Record :=
  if hasCol r colRinshoKaisetsu then
    setCol r colRinshoKaisetsu (to_full_width_str (getCol r colRinshoKaisetsu))
  else r

/-- `format_df` (meihyo.py lines 707-720): select the 釈文 / 作品名 /
コメント variants according to the work-type discriminator.  The source
reads the three variant cells of the chosen branch with bracket indexing,
which raises `KeyError` when a column is missing; that abort is `none`. -/
def step_format (r : Record) : Option Record :=
  if getCol r colSakuhinKeishiki = rinStr then
    if hasCol r colShakumonRin && hasCol r colSakuhinMeiRin && hasCol r colCommentRin then
      some (setCol (setCol (setCol r colShakumon (getCol r colShakumonRin))
        colSakuhinMei (getCol r colSakuhinMeiRin)) colComment (getCol r colCommentRin))
    else none
  else
    if hasCol r colShakumonSou && hasCol r colSakuhinMeiSou && hasCol r colCommentSou then
      some (setCol (setCol (setCol r colShakumon (getCol r colShakumonSou))
        colSakuhinMei (getCol r colSakuhinMeiSou)) colComment (getCol r colCommentSou))
    else none

/-- Synthesize 作品情報（法帖解説） (meihyo.py lines 735-736). -/
def step_exp (r : Record) : Record :=
  setCol r colSakuhinJouhouExp (combine_work_name_for_exp r)

/-- Drop the timestamp column when present (meihyo.py lines 738-739). -/
def step_timestamp (r : Record) : Record :=
  if hasCol r colTimestamp then dropCol r colTimestamp else r

/-- Combine 学部 and 学年 into 学部学年 and drop the parts
(meihyo.py lines 741-744). -/
def step_gakubu (r : Record) : Record :=
  if hasCol r colGakubu && hasCol r colGakunen then
    dropCol (dropCol (setCol r colGakubuGakunen
      (getCol r colGakubu ++ halfSpace ++ getCol r colGakunen)) colGakubu) colGakunen
  else r

/-- Combine 作品情報 and drop 作品形式 / 作品名 / 作者名
(meihyo.py lines 746-761). -/
def step_jouhou (r : Record) : Record :=
  if hasCol r colSakuhinMei && hasCol r colSakuhinKeishiki then
    dropCol (dropCol (dropCol (setCol r colSakuhinJouhou (combine_work_name r))
      colSakuhinKeishiki) colSakuhinMei) colSakushaMei
  else r

/-- Wrap the furigana in full-width parentheses (meihyo.py lines 763-767). -/
def step_furigana (r : Record) : Record :=
  setCol r colFurigana (zenParenOpen ++ getCol r colFurigana ++ zenParenClose)

/-- Map the resubmission status to its display label
(meihyo.py lines 769-778). -/
def step_resubmit (r : Record) : Record :=
  setCol r colResubmit (resubmission_label (getCol r colResubmit))

/-- `preprocess_data` (meihyo.py lines 700-780, identical in kaisetu.py lines
821-917) applied to one row, as the composition of its sequential blocks;
`none` when `format_df` would raise `KeyError`. -/
def preprocess_data (r : Record) : Option Record :=
  (step_format (step_fullwidth r)).map (fun r2 =>
    step_resubmit (step_furigana (step_jouhou (step_gakubu (step_timestamp
      (step_exp r2))))))

/-- C8: The explanation-field work-info synthesis returns 「work」 when the
author is 無し, author「work」 for a reproduction with a named author, and the
empty string otherwise — with the spec's two concrete examples. -/
theorem claim_C8_work_info_exp :
    (∀ r : Record,
      combine_work_name_for_exp r =
        if getCol r colSakushaMei = nashiStr then
          kagiOpen ++ getCol r colSakuhinMei ++ kagiClose
        else if getCol r colSakuhinKeishiki = rinStr then
          getCol r colSakushaMei ++ kagiOpen ++ getCol r colSakuhinMei ++ kagiClose
        else emptyStr) ∧
    combine_work_name_for_exp
      [ (colSakushaMei, nashiStr), (colSakuhinMei, "桜") ] = "「桜」" ∧
    combine_work_name_for_exp
      [ (colSakuhinKeishiki, rinStr), (colSakushaMei, "山田"), (colSakuhinMei, "桜") ] =
      "山田「桜」" :=
  ⟨fun _ => rfl, by decide, by decide⟩

theorem hasCol_setCol_self (r : Record) (k v : String) :
    hasCol (setCol r k v) k = true := by
  unfold hasCol setCol
  rw [List.find?_cons_of_pos _ (by simp)]
  rfl

theorem hasCol_setCol_ne (r : Record) (k v k2 : String) (h : k2 ≠ k) :
    hasCol (setCol r k v) k2 = hasCol r k2 := by
  unfold hasCol setCol dropCol
  rw [List.find?_cons_of_neg _ (by simp; exact fun hc => h hc.symm)]
  rw [find?_dropCol_ne k k2 h r]

theorem hasCol_dropCol_ne (r : Record) (k k2 : String) (h : k2 ≠ k) :
    hasCol (dropCol r k) k2 = hasCol r k2 := by
  unfold hasCol dropCol
  rw [find?_dropCol_ne k k2 h r]

theorem getCol_step_fullwidth_ne (r : Record) (k : String)
    (h : k ≠ colRinshoKaisetsu) :
    getCol (step_fullwidth r) k = getCol r k := by
  unfold step_fullwidth
  split_ifs with hc
  · rw [getCol_setCol, if_neg h]
  · rfl

theorem getCol_step_format_ne (r r2 : Record) (k : String)
    (hr : step_format r = some r2) (h1 : k ≠ colShakumon)
    (h2 : k ≠ colSakuhinMei) (h3 : k ≠ colComment) :
    getCol r2 k = getCol r k := by
  unfold step_format at hr
  split_ifs at hr
  all_goals
    first
    | exact Option.noConfusion hr
    | (simp only [Option.some.injEq] at hr; subst hr;
       rw [getCol_setCol, if_neg h3, getCol_setCol, if_neg h2, getCol_setCol, if_neg h1])

theorem hasCol_step_format_ne (r r2 : Record) (k : String)
    (hr : step_format r = some r2) (h1 : k ≠ colShakumon)
    (h2 : k ≠ colSakuhinMei) (h3 : k ≠ colComment) :
    hasCol r2 k = hasCol r k := by
  unfold step_format at hr
  split_ifs at hr
  all_goals
    first
    | exact Option.noConfusion hr
    | (simp only [Option.some.injEq] at hr; subst hr;
       rw [hasCol_setCol_ne _ _ _ _ h3, hasCol_setCol_ne _ _ _ _ h2,
         hasCol_setCol_ne _ _ _ _ h1])

theorem hasCol_step_fullwidth_ne (r : Record) (k : String)
    (h : k ≠ colRinshoKaisetsu) :
    hasCol (step_fullwidth r) k = hasCol r k := by
  unfold step_fullwidth
  split_ifs with hc
  · rw [hasCol_setCol_ne _ _ _ _ h]
  · rfl

theorem hasCol_step_jouhou_ne (r : Record) (k : String) (h1 : k ≠ colSakuhinJouhou)
    (h2 : k ≠ colSakuhinKeishiki) (h3 : k ≠ colSakuhinMei) (h4 : k ≠ colSakushaMei) :
    hasCol (step_jouhou r) k = hasCol r k := by
  unfold step_jouhou
  split_ifs with hc
  · rw [hasCol_dropCol_ne _ _ _ h4, hasCol_dropCol_ne _ _ _ h3,
      hasCol_dropCol_ne _ _ _ h2, hasCol_setCol_ne _ _ _ _ h1]
  · rfl

theorem hasCol_step_furigana_ne (r : Record) (k : String) (h : k ≠ colFurigana) :
    hasCol (step_furigana r) k = hasCol r k := by
  unfold step_furigana
  rw [hasCol_setCol_ne _ _ _ _ h]

theorem hasCol_step_resubmit_ne (r : Record) (k : String) (h : k ≠ colResubmit) :
    hasCol (step_resubmit r) k = hasCol r k := by
  unfold step_resubmit
  rw [hasCol_setCol_ne _ _ _ _ h]

/-- When the discriminator is not 臨 and the three 創作-variant columns are
present, `format_df` succeeds and writes the 創作 variants. -/
theorem step_format_sou (r : Record)
    (hwt : getCol r colSakuhinKeishiki ≠ rinStr)
    (hs : hasCol r colShakumonSou = true) (hm : hasCol r colSakuhinMeiSou = true)
    (hc : hasCol r colCommentSou = true) :
    step_format r =
      some (setCol (setCol (setCol r colShakumon (getCol r colShakumonSou))
        colSakuhinMei (getCol r colSakuhinMeiSou)) colComment (getCol r colCommentSou)) := by
  unfold step_format
  rw [if_neg hwt, if_pos (by rw [hs, hm, hc]; rfl)]

theorem getCol_step_exp_ne (r : Record) (k : String)
    (h : k ≠ colSakuhinJouhouExp) :
    getCol (step_exp r) k = getCol r k := by
  unfold step_exp
  rw [getCol_setCol, if_neg h]

theorem getCol_step_timestamp_ne (r : Record) (k : String) (h : k ≠ colTimestamp) :
    getCol (step_timestamp r) k = getCol r k := by
  unfold step_timestamp
  split_ifs with hc
  · rw [getCol_dropCol, if_neg h]
  · rfl

theorem getCol_step_gakubu_ne (r : Record) (k : String) (h1 : k ≠ colGakubuGakunen)
    (h2 : k ≠ colGakubu) (h3 : k ≠ colGakunen) :
    getCol (step_gakubu r) k = getCol r k := by
  unfold step_gakubu
  split_ifs with hc
  · rw [getCol_dropCol, if_neg h3, getCol_dropCol, if_neg h2, getCol_setCol, if_neg h1]
  · rfl

theorem getCol_step_jouhou_ne (r : Record) (k : String) (h1 : k ≠ colSakuhinJouhou)
    (h2 : k ≠ colSakuhinKeishiki) (h3 : k ≠ colSakuhinMei) (h4 : k ≠ colSakushaMei) :
    getCol (step_jouhou r) k = getCol r k := by
  unfold step_jouhou
  split_ifs with hc
  · rw [getCol_dropCol, if_neg h4, getCol_dropCol, if_neg h3, getCol_dropCol,
      if_neg h2, getCol_setCol, if_neg h1]
  · rfl

theorem getCol_step_furigana_ne (r : Record) (k : String) (h : k ≠ colFurigana) :
    getCol (step_furigana r) k = getCol r k := by
  unfold step_furigana
  rw [getCol_setCol, if_neg h]

theorem getCol_step_resubmit_ne (r : Record) (k : String) (h : k ≠ colResubmit) :
    getCol (step_resubmit r) k = getCol r k := by
  unfold step_resubmit
  rw [getCol_setCol, if_neg h]

theorem hasCol_step_exp_ne (r : Record) (k : String) (h : k ≠ colSakuhinJouhouExp) :
    hasCol (step_exp r) k = hasCol r k := by
  unfold step_exp
  rw [hasCol_setCol_ne _ _ _ _ h]

theorem hasCol_step_timestamp_ne (r : Record) (k : String) (h : k ≠ colTimestamp) :
    hasCol (step_timestamp r) k = hasCol r k := by
  unfold step_timestamp
  split_ifs with hc
  · rw [hasCol_dropCol_ne _ _ _ h]
  · rfl

theorem hasCol_step_gakubu_ne (r : Record) (k : String) (h1 : k ≠ colGakubuGakunen)
    (h2 : k ≠ colGakubu) (h3 : k ≠ colGakunen) :
    hasCol (step_gakubu r) k = hasCol r k := by
  unfold step_gakubu
  split_ifs with hc
  · rw [hasCol_dropCol_ne _ _ _ h3, hasCol_dropCol_ne _ _ _ h2,
      hasCol_setCol_ne _ _ _ _ h1]
  · rfl

/-- A column none of the preprocessing blocks write or drop reads the same
before and after a successful `preprocess_data`. -/
theorem getCol_preprocess_data_untouched (r out : Record) (k : String)
    (hout : preprocess_data r = some out)
    (h1 : k ≠ colRinshoKaisetsu) (h2 : k ≠ colShakumon) (h3 : k ≠ colSakuhinMei)
    (h4 : k ≠ colComment) (h5 : k ≠ colSakuhinJouhouExp) (h6 : k ≠ colTimestamp)
    (h7 : k ≠ colGakubuGakunen) (h8 : k ≠ colGakubu) (h9 : k ≠ colGakunen)
    (h10 : k ≠ colSakuhinJouhou) (h11 : k ≠ colSakuhinKeishiki)
    (h12 : k ≠ colSakushaMei) (h13 : k ≠ colFurigana) (h14 : k ≠ colResubmit) :
    getCol out k = getCol r k := by
  unfold preprocess_data at hout
  rw [Option.map_eq_some'] at hout
  obtain ⟨r2, hstep, hf⟩ := hout
  rw [← hf, getCol_step_resubmit_ne _ _ h14, getCol_step_furigana_ne _ _ h13,
    getCol_step_jouhou_ne _ _ h10 h11 h3 h12, getCol_step_gakubu_ne _ _ h7 h8 h9,
    getCol_step_timestamp_ne _ _ h6, getCol_step_exp_ne _ _ h5,
    getCol_step_format_ne _ _ _ hstep h2 h3 h4, getCol_step_fullwidth_ne _ _ h1]

/-- Column presence of such a column is likewise preserved. -/
theorem hasCol_preprocess_data_untouched (r out : Record) (k : String)
    (hout : preprocess_data r = some out)
    (h1 : k ≠ colRinshoKaisetsu) (h2 : k ≠ colShakumon) (h3 : k ≠ colSakuhinMei)
    (h4 : k ≠ colComment) (h5 : k ≠ colSakuhinJouhouExp) (h6 : k ≠ colTimestamp)
    (h7 : k ≠ colGakubuGakunen) (h8 : k ≠ colGakubu) (h9 : k ≠ colGakunen)
    (h10 : k ≠ colSakuhinJouhou) (h11 : k ≠ colSakuhinKeishiki)
    (h12 : k ≠ colSakushaMei) (h13 : k ≠ colFurigana) (h14 : k ≠ colResubmit) :
    hasCol out k = hasCol r k := by
  unfold preprocess_data at hout
  rw [Option.map_eq_some'] at hout
  obtain ⟨r2, hstep, hf⟩ := hout
  rw [← hf, hasCol_step_resubmit_ne _ _ h14, hasCol_step_furigana_ne _ _ h13,
    hasCol_step_jouhou_ne _ _ h10 h11 h3 h12, hasCol_step_gakubu_ne _ _ h7 h8 h9,
    hasCol_step_timestamp_ne _ _ h6, hasCol_step_exp_ne _ _ h5,
    hasCol_step_format_ne _ _ _ hstep h2 h3 h4, hasCol_step_fullwidth_ne _ _ h1]

/-- When the discriminator is not 臨, a successful pass selects the 創作
transcription variant. -/
theorem getCol_preprocess_data_shakumon (r out : Record)
    (hout : preprocess_data r = some out)
    (hwt : getCol r colSakuhinKeishiki ≠ rinStr) :
    getCol out colShakumon = getCol r colShakumonSou := by
  unfold preprocess_data at hout
  rw [Option.map_eq_some'] at hout
  obtain ⟨r2, hstep, hf⟩ := hout
  rw [← hf, getCol_step_resubmit_ne _ _ (by decide), getCol_step_furigana_ne _ _ (by decide),
    getCol_step_jouhou_ne _ _ (by decide) (by decide) (by decide) (by decide),
    getCol_step_gakubu_ne _ _ (by decide) (by decide) (by decide),
    getCol_step_timestamp_ne _ _ (by decide), getCol_step_exp_ne _ _ (by decide)]
  unfold step_format at hstep
  rw [if_neg (by rw [getCol_step_fullwidth_ne _ _ (by decide)]; exact hwt)] at hstep
  split_ifs at hstep
  all_goals
    first
    | exact Option.noConfusion hstep
    | (simp only [Option.some.injEq] at hstep; subst hstep;
       rw [getCol_setCol, if_neg (by decide), getCol_setCol, if_neg (by decide),
         getCol_setCol, if_pos rfl];
       exact getCol_step_fullwidth_ne _ _ (by decide))

/-- When the discriminator is not 臨, a successful pass selects the 創作
comment variant. -/
theorem getCol_preprocess_data_comment (r out : Record)
    (hout : preprocess_data r = some out)
    (hwt : getCol r colSakuhinKeishiki ≠ rinStr) :
    getCol out colComment = getCol r colCommentSou := by
  unfold preprocess_data at hout
  rw [Option.map_eq_some'] at hout
  obtain ⟨r2, hstep, hf⟩ := hout
  rw [← hf, getCol_step_resubmit_ne _ _ (by decide), getCol_step_furigana_ne _ _ (by decide),
    getCol_step_jouhou_ne _ _ (by decide) (by decide) (by decide) (by decide),
    getCol_step_gakubu_ne _ _ (by decide) (by decide) (by decide),
    getCol_step_timestamp_ne _ _ (by decide), getCol_step_exp_ne _ _ (by decide)]
  unfold step_format at hstep
  rw [if_neg (by rw [getCol_step_fullwidth_ne _ _ (by decide)]; exact hwt)] at hstep
  split_ifs at hstep
  all_goals
    first
    | exact Option.noConfusion hstep
    | (simp only [Option.some.injEq] at hstep; subst hstep;
       rw [getCol_setCol, if_pos rfl];
       exact getCol_step_fullwidth_ne _ _ (by decide))

/-- A successful `format_df` always writes the 作品名 column. -/
theorem hasCol_step_format_mei (r r2 : Record) (hr : step_format r = some r2) :
    hasCol r2 colSakuhinMei = true := by
  unfold step_format at hr
  split_ifs at hr
  all_goals
    first
    | exact Option.noConfusion hr
    | (simp only [Option.some.injEq] at hr; subst hr;
       rw [hasCol_setCol_ne _ _ _ _ (by decide)]; exact hasCol_setCol_self _ _ _)

/-- A successful application of `preprocess_data` leaves the work-type
discriminator column reading as the empty string: `format_df` always creates
作品名, so the 作品情報 block drops 作品形式 whenever it exists. -/
theorem getCol_preprocess_data_keishiki (r out : Record)
    (hout : preprocess_data r = some out) :
    getCol out colSakuhinKeishiki = emptyStr := by
  unfold preprocess_data at hout
  rw [Option.map_eq_some'] at hout
  obtain ⟨r2, hstep, hf⟩ := hout
  rw [← hf, getCol_step_resubmit_ne _ _ (by decide), getCol_step_furigana_ne _ _ (by decide)]
  have hmei : hasCol (step_gakubu (step_timestamp (step_exp r2))) colSakuhinMei = true := by
    rw [hasCol_step_gakubu_ne _ _ (by decide) (by decide) (by decide),
      hasCol_step_timestamp_ne _ _ (by decide), hasCol_step_exp_ne _ _ (by decide)]
    exact hasCol_step_format_mei _ _ hstep
  unfold step_jouhou
  split_ifs with hcond
  · rw [getCol_dropCol, if_neg (by decide), getCol_dropCol, if_neg (by decide),
      getCol_dropCol, if_pos rfl]
  · refine getCol_of_not_hasCol ?_
    rw [hmei] at hcond
    simp only [Bool.true_and] at hcond
    exact Bool.not_eq_true _ ▸ Bool.eq_false_iff.mpr hcond

/-- Success of `preprocess_data` on a 創作-branch row carrying the three
創作-variant columns that `format_df` bracket-reads on that branch. -/
theorem preprocess_data_sou (r : Record)
    (hwt : getCol r colSakuhinKeishiki ≠ rinStr)
    (hs : hasCol r colShakumonSou = true)
    (hm : hasCol r colSakuhinMeiSou = true)
    (hc : hasCol r colCommentSou = true) :
    ∃ out : Record, preprocess_data r = some out := by
  unfold preprocess_data
  rw [step_format_sou (step_fullwidth r)
    (by rw [getCol_step_fullwidth_ne _ _ (by decide)]; exact hwt)
    (by rw [hasCol_step_fullwidth_ne _ _ (by decide)]; exact hs)
    (by rw [hasCol_step_fullwidth_ne _ _ (by decide)]; exact hm)
    (by rw [hasCol_step_fullwidth_ne _ _ (by decide)]; exact hc)]
  exact ⟨_, rfl⟩

/-- C7 (amended): For every row whose work-type discriminator is not 臨 and
which carries the three 創作-variant columns `format_df` bracket-reads on
that branch (on a row missing one of them the source raises `KeyError`
instead of producing output), both applications of the row preprocessor
succeed, and the second leaves the name field and the selected
transcription and comment fields unchanged.  For 臨 rows those selected
fields change on re-application whenever the variants differ — see the
counterexample. -/
theorem claim_C7_preprocess_reapplication (r : Record)
    (hwt : getCol r colSakuhinKeishiki ≠ rinStr)
    (hs : hasCol r colShakumonSou = true)
    (hm : hasCol r colSakuhinMeiSou = true)
    (hc : hasCol r colCommentSou = true) :
    ∃ out out2 : Record,
      preprocess_data r = some out ∧
      preprocess_data out = some out2 ∧
      getCol out2 colShimei = getCol out colShimei ∧
      getCol out2 colShakumon = getCol out colShakumon ∧
      getCol out2 colComment = getCol out colComment := by
  obtain ⟨out, hout⟩ := preprocess_data_sou r hwt hs hm hc
  have hwt2 : getCol out colSakuhinKeishiki ≠ rinStr := by
    rw [getCol_preprocess_data_keishiki r out hout]
    decide
  have hs2 : hasCol out colShakumonSou = true := by
    rw [hasCol_preprocess_data_untouched r out _ hout
      (by decide) (by decide) (by decide) (by decide) (by decide) (by decide)
      (by decide) (by decide) (by decide) (by decide) (by decide) (by decide)
      (by decide) (by decide)]
    exact hs
  have hm2 : hasCol out colSakuhinMeiSou = true := by
    rw [hasCol_preprocess_data_untouched r out _ hout
      (by decide) (by decide) (by decide) (by decide) (by decide) (by decide)
      (by decide) (by decide) (by decide) (by decide) (by decide) (by decide)
      (by decide) (by decide)]
    exact hm
  have hc2 : hasCol out colCommentSou = true := by
    rw [hasCol_preprocess_data_untouched r out _ hout
      (by decide) (by decide) (by decide) (by decide) (by decide) (by decide)
      (by decide) (by decide) (by decide) (by decide) (by decide) (by decide)
      (by decide) (by decide)]
    exact hc
  obtain ⟨out2, hout2⟩ := preprocess_data_sou out hwt2 hs2 hm2 hc2
  refine ⟨out, out2, hout, hout2, ?_, ?_, ?_⟩
  · exact getCol_preprocess_data_untouched out out2 colShimei hout2
      (by decide) (by decide) (by decide) (by decide) (by decide) (by decide)
      (by decide) (by decide) (by decide) (by decide) (by decide) (by decide)
      (by decide) (by decide)
  · rw [getCol_preprocess_data_shakumon out out2 hout2 hwt2,
      getCol_preprocess_data_shakumon r out hout hwt,
      getCol_preprocess_data_untouched r out colShakumonSou hout
        (by decide) (by decide) (by decide) (by decide) (by decide) (by decide)
        (by decide) (by decide) (by decide) (by decide) (by decide) (by decide)
        (by decide) (by decide)]
  · rw [getCol_preprocess_data_comment out out2 hout2 hwt2,
      getCol_preprocess_data_comment r out hout hwt,
      getCol_preprocess_data_untouched r out colCommentSou hout
        (by decide) (by decide) (by decide) (by decide) (by decide) (by decide)
        (by decide) (by decide) (by decide) (by decide) (by decide) (by decide)
        (by decide) (by decide)]

/-- A 臨 row carrying all six variant columns, with differing transcription
variants. -/
def c7RinRow : Record :=
  [ (colSakuhinKeishiki, rinStr), (colShakumonRin, "臨A"), (colShakumonSou, "創B"),
    (colSakuhinMeiRin, "名A"), (colSakuhinMeiSou, "名B"),
    (colCommentRin, "コA"), (colCommentSou, "コB") ]

/-- Counterexample to C7 as stated: for a 臨 row with all variant columns
present (so neither pass raises), the first application selects the 臨書
transcription, but the second — the discriminator column having been dropped
by the first — selects the 創作 variant, so the selected-transcription field
changes on re-application. -/
theorem claim_C7_counterexample :
    (preprocess_data c7RinRow).map (fun out => getCol out colShakumon) =
      some "臨A" ∧
    ((preprocess_data c7RinRow).bind preprocess_data).map
      (fun out => getCol out colShakumon) = some "創B" ∧
    ("臨A" : String) ≠ "創B" := by
  refine ⟨by decide, by decide, by decide⟩

/-- A 創作 row carrying the three 創作-variant columns. -/
def c7SouRow : Record :=
  [ (colShimei, "花子"), (colSakuhinKeishiki, "創"), (colShakumonSou, "創B"),
    (colSakuhinMeiSou, "名B"), (colCommentSou, "コB") ]

/-- Witness for C7 (amended) on a concrete 創作 row. -/
theorem claim_C7_witness :
    ∃ out out2 : Record,
      preprocess_data c7SouRow = some out ∧
      preprocess_data out = some out2 ∧
      getCol out2 colShimei = getCol out colShimei ∧
      getCol out2 colShakumon = getCol out colShakumon ∧
      getCol out2 colComment = getCol out colComment :=
  claim_C7_preprocess_reapplication c7SouRow (by decide) (by decide) (by decide)
    (by decide)

end Syodokai
